import Mathlib

/-!
# Verification of the sarama producer core

A shallow embedding of the per-partition pending-message buffer
(`producer_partition_buffer.go`) and of the `ProduceRequest` wire codec,
together with proofs of the specification's testable properties.

Conventions of the embedding:
* Go slices become Lean `List`s; Go `int` indices/counters become `Nat`
  (they stay non-negative under the stated call preconditions); the retry
  limit `Producer.Retry.Max` stays an `Int` because the configuration may
  hold a non-positive value.
* The surrounding `asyncProducer` (its configuration and its `successes` /
  `errors` channels) is not part of the sources; following the spec, the
  channels are modelled as append-only lists stored next to the buffer
  state, and `returnError` appends the message/error pair to the error list.
* Pointer identity of a `ProducerMessage` is modelled by a numeric id.
-/

/-- Modelled from the spec: the configuration options the core consumes
(`Producer.Return.Successes` and `Producer.Retry.Max`); the surrounding
`config.go` is not part of the sources. -/
structure Config where
  retryMax : Int
  returnSuccesses : Bool
deriving DecidableEq, Repr

/-- Result of running an `Encoder` capability: the encoded bytes or an error. -/
inductive EncRes where
  | ok (bytes : List Nat)
  | fail (e : Nat)
deriving DecidableEq, Repr

/-- A caller-owned `ProducerMessage`: a pointer identity plus the optional
key/value encoders (modelled by their encode outcome, `none` = nil field). -/
structure PMsg where
  id : Nat
  key : Option EncRes
  val : Option EncRes
deriving DecidableEq, Repr

/-- The wire-owned `Message` built by `add` (codec is always
`CompressionNone`, so only key/value are kept; `none` = nil slice). -/
structure WMessage where
  key : Option (List Nat)
  value : Option (List Nat)
deriving DecidableEq, Repr

/-- One `ppbMessage` slot payload: the in-message, the out-message and the
retry counter. A cleared slot (Go: `in = nil`) is `none` at the buffer level. -/
structure Entry where
  msg : PMsg
  out : WMessage
  retries : Nat
deriving DecidableEq, Repr

/-- `producerPartitionBuffer` state. The `successes` and `errors` fields
stand for the parent producer's result channels (modelled from the spec as
append-only lists; an element of `successes` is the delivered message id,
an element of `errors` pairs the delivered message id with the error).
A `none` id records Go delivering a nil pointer. -/
structure PPB where
  buf : List (Option Entry)
  head : Nat
  tail : Nat
  count : Nat
  cur : Nat
  successes : List (Option Nat)
  errors : List (Option Nat × Nat)
deriving DecidableEq, Repr

def minQueueLen : Nat := 16

def maxBuffer : Nat := 1024

def newPPB : PPB :=
  { buf := List.replicate minQueueLen none
    head := 0, tail := 0, count := 0, cur := 0
    successes := [], errors := [] }

def PPB.full (p : PPB) : Bool := p.count = maxBuffer

def PPB.hasNext (p : PPB) : Bool := p.count > 0 && p.cur < p.count

/-- Go's `copy(dst[off:], src)`: overwrite `min (dst.length - off) src.length`
elements of `dst` starting at `off` with the first elements of `src`. -/
def goCopy {α : Type} (dst : List α) (off : Nat) (src : List α) : List α :=
  let k := min (dst.length - off) src.length
  dst.take off ++ src.take k ++ dst.drop (off + k)

/-- `producerPartitionBuffer.resize`: allocate a fresh backing array of
length `2·count` and compact the occupied span to offset 0, copying the two
contiguous runs separately in the wraparound case. -/
def PPB.resize (p : PPB) : PPB :=
  let newBuf0 : List (Option Entry) := List.replicate (p.count * 2) none
  let newBuf :=
    if p.tail > p.head then
      goCopy newBuf0 0 ((p.buf.drop p.head).take (p.tail - p.head))
    else
      goCopy (goCopy newBuf0 0 (p.buf.drop p.head)) (p.buf.length - p.head)
        (p.buf.take p.tail)
  { p with buf := newBuf, head := 0, tail := p.count }

/-- Encoding step of `add` for one optional payload field: a nil field
yields a nil slice, otherwise the Encoder runs and may fail. -/
def encodeOpt : Option EncRes → Except Nat (Option (List Nat))
  | none => .ok none
  | some (.ok b) => .ok (some b)
  | some (.fail e) => .error e

/-- `producerPartitionBuffer.add`: encode key then value (an encoding
failure goes to `returnError` and leaves the buffer untouched), grow the
backing array when completely full, then append the entry at the tail. -/
def PPB.add (p : PPB) (m : PMsg) : PPB :=
  match encodeOpt m.key with
  | .error e => { p with errors := p.errors ++ [(some m.id, e)] }
  | .ok key =>
    match encodeOpt m.val with
    | .error e => { p with errors := p.errors ++ [(some m.id, e)] }
    | .ok val =>
      let p := if p.count = p.buf.length then p.resize else p
      let entry : Entry := { msg := m, out := { key := key, value := val }, retries := 0 }
      { p with
          buf := p.buf.set p.tail (some entry)
          tail := (p.tail + 1) % p.buf.length
          count := p.count + 1 }

/-- `producerPartitionBuffer.next`: read the out-message at `head + cur`
(modulo capacity) and advance the cursor. -/
def PPB.next (p : PPB) : Option WMessage × PPB :=
  ((p.buf.getD ((p.head + p.cur) % p.buf.length) none).map (·.out),
    { p with cur := p.cur + 1 })

/-- Loop body of `markSuccess`, iterated `n` times: optionally deliver the
head message on the success channel (after `clear()`), nil the slot, and
advance the head. -/
def popSuccessLoop (rs : Bool) : Nat → PPB → PPB
  | 0, p => p
  | n + 1, p =>
    popSuccessLoop rs n
      { p with
          successes :=
            if rs then
              p.successes ++ [(p.buf.getD p.head none).map (·.msg.id)]
            else p.successes
          buf := p.buf.set p.head none
          head := (p.head + 1) % p.buf.length }

/-- The shared shrink check at the tail of every mark operation. -/
def shrinkCheck (p : PPB) : PPB :=
  if minQueueLen < p.buf.length ∧ p.count * 4 = p.buf.length then p.resize else p

/-- `producerPartitionBuffer.markSuccess`. -/
def PPB.markSuccess (conf : Config) (p : PPB) (n : Nat) : PPB :=
  let p := popSuccessLoop conf.returnSuccesses n p
  shrinkCheck { p with count := p.count - n, cur := p.cur - n }

/-- First loop of `markFailure`: starting at the (local) index `cur`, bump
the retry counter of `n` consecutive slots and count how many reach exactly
`Retry.Max`. Returns the updated backing array and the abandoned count. -/
def mfBumpLoop (retryMax : Int) (buf : List (Option Entry)) (cur : Nat) :
    Nat → List (Option Entry) × Nat
  | 0 => (buf, 0)
  | n + 1 =>
    match buf.getD cur none with
    | some e =>
      let e' : Entry := { e with retries := e.retries + 1 }
      let r := mfBumpLoop retryMax (buf.set cur (some e')) ((cur + 1) % buf.length) n
      (r.1, (if (e'.retries : Int) = retryMax then 1 else 0) + r.2)
    | none => mfBumpLoop retryMax buf ((cur + 1) % buf.length) n

/-- Second loop of `markFailure` (also the whole loop of
`markImmediateFailure`): deliver the head message on the error channel via
`returnError`, nil the slot, advance the head; iterated `n` times. -/
def popFailLoop (err : Nat) : Nat → PPB → PPB
  | 0, p => p
  | n + 1, p =>
    popFailLoop err n
      { p with
          errors := p.errors ++ [((p.buf.getD p.head none).map (·.msg.id), err)]
          buf := p.buf.set p.head none
          head := (p.head + 1) % p.buf.length }

/-- `producerPartitionBuffer.markFailure`. -/
def PPB.markFailure (conf : Config) (p : PPB) (n : Nat) (err : Nat) : PPB :=
  let r := mfBumpLoop conf.retryMax p.buf p.head n
  let p := popFailLoop err r.2 { p with buf := r.1 }
  shrinkCheck { p with count := p.count - r.2, cur := p.cur - r.2 }

/-- `producerPartitionBuffer.markImmediateFailure`. -/
def PPB.markImmediateFailure (p : PPB) (n : Nat) (err : Nat) : PPB :=
  let p := popFailLoop err n p
  shrinkCheck { p with count := p.count - n, cur := p.cur - n }

/-- The abandoned count computed by the first loop of `markFailure`. -/
def PPB.mfAbandoned (conf : Config) (p : PPB) (n : Nat) : Nat :=
  (mfBumpLoop conf.retryMax p.buf p.head n).2

/-! ## Operation sequences -/

/-- One buffer operation. -/
inductive Op where
  | add (m : PMsg)
  | next
  | markSuccess (n : Nat)
  | markFailure (n : Nat) (err : Nat)
  | markImmediateFailure (n : Nat) (err : Nat)
deriving DecidableEq, Repr

def applyOp (conf : Config) (p : PPB) : Op → PPB
  | .add m => p.add m
  | .next => (p.next).2
  | .markSuccess n => p.markSuccess conf n
  | .markFailure n err => p.markFailure conf n err
  | .markImmediateFailure n err => p.markImmediateFailure n err

def run (conf : Config) : PPB → List Op → PPB
  | p, [] => p
  | p, op :: ops => run conf (applyOp conf p op) ops

/-- Call preconditions: `next` only when `hasNext`, and each mark call
applied to at most the number of drafted (cursor-covered) entries. -/
def validOp (p : PPB) : Op → Bool
  | .add _ => true
  | .next => p.hasNext
  | .markSuccess n => n ≤ p.cur
  | .markFailure n _ => n ≤ p.cur
  | .markImmediateFailure n _ => n ≤ p.cur

def validTrace (conf : Config) : PPB → List Op → Bool
  | _, [] => true
  | p, op :: ops => validOp p op && validTrace conf (applyOp conf p op) ops

/-- Buffer states reachable from a fresh buffer by valid operations. -/
inductive Reach (conf : Config) : PPB → Prop
  | init : Reach conf newPPB
  | step (p : PPB) (op : Op) : Reach conf p → validOp p op = true →
      Reach conf (applyOp conf p op)

/-! ## Abstraction: the live queue -/

/-- The slots of the occupied span, oldest first. -/
def PPB.liveSlots (p : PPB) : List (Option Entry) :=
  (List.range p.count).map fun i => p.buf.getD ((p.head + i) % p.buf.length) none

/-- The live entries, oldest first (drops cleared slots). -/
def PPB.queue (p : PPB) : List Entry := p.liveSlots.filterMap id

def PPB.queueIds (p : PPB) : List Nat := p.queue.map (·.msg.id)

/-- Ids delivered on a channel (dropping nil deliveries). -/
def chanIds (l : List (Option Nat)) : List Nat := l.filterMap id

def errChanIds (l : List (Option Nat × Nat)) : List Nat := l.filterMap (·.1)

/-- All message ids accounted for by a buffer: delivered successes,
delivered failures, and still-pending entries. -/
def ledger (p : PPB) : Multiset Nat :=
  (chanIds p.successes : Multiset Nat) + (errChanIds p.errors : Multiset Nat)
    + (p.queueIds : Multiset Nat)

/-- Ids of all messages submitted by a sequence of operations. -/
def submittedIds : List Op → Multiset Nat
  | [] => 0
  | .add m :: ops => {m.id} + submittedIds ops
  | _ :: ops => submittedIds ops

/-! ## Generic helper lemmas -/

theorem getD_set_self {α : Type} {l : List α} {i : Nat} (h : i < l.length)
    (a d : α) : (l.set i a).getD i d = a := by
  rw [List.getD_eq_getElem?_getD, List.getElem?_set_self h]
  rfl

theorem getD_set_ne {α : Type} {l : List α} {i j : Nat} (h : i ≠ j)
    (a d : α) : (l.set i a).getD j d = l.getD j d := by
  rw [List.getD_eq_getElem?_getD, List.getElem?_set_ne h,
    ← List.getD_eq_getElem?_getD]

theorem getD_take {α : Type} {l : List α} {n i : Nat} (h : i < n) (d : α) :
    (l.take n).getD i d = l.getD i d := by
  rw [List.getD_eq_getElem?_getD, List.getElem?_take, if_pos h,
    ← List.getD_eq_getElem?_getD]

theorem getD_drop {α : Type} (l : List α) (k i : Nat) (d : α) :
    (l.drop k).getD i d = l.getD (k + i) d := by
  rw [List.getD_eq_getElem?_getD, List.getElem?_drop,
    ← List.getD_eq_getElem?_getD]

theorem getD_replicate {α : Type} (n i : Nat) (a d : α) :
    (List.replicate n a).getD i d = if i < n then a else d := by
  rw [List.getD_eq_getElem?_getD, List.getElem?_replicate]
  split <;> rfl

theorem getD_out_of_range {α : Type} {l : List α} {i : Nat}
    (h : l.length ≤ i) (d : α) : l.getD i d = d := by
  rw [List.getD_eq_getElem?_getD, List.getElem?_eq_none h]
  rfl

/-- Within one lap of the circular buffer, slot positions are injective. -/
theorem mod_shift_inj {n h i j : Nat} (hi : i < n) (hj : j < n)
    (heq : (h + i) % n = (h + j) % n) : i = j := by
  have h1 : i ≡ j [MOD n] :=
    Nat.ModEq.add_left_cancel (Nat.ModEq.refl h) heq
  have h2 : i % n = j % n := h1
  rwa [Nat.mod_eq_of_lt hi, Nat.mod_eq_of_lt hj] at h2

/-! ## Characterization of `resize` -/

theorem resize_head (p : PPB) : p.resize.head = 0 := rfl

theorem resize_tail (p : PPB) : p.resize.tail = p.count := rfl

theorem resize_count (p : PPB) : p.resize.count = p.count := rfl

theorem resize_cur (p : PPB) : p.resize.cur = p.cur := rfl

theorem resize_successes (p : PPB) : p.resize.successes = p.successes := rfl

theorem resize_errors (p : PPB) : p.resize.errors = p.errors := rfl

/-- The compacted backing array: length `2·count`, the first `count` slots
are the old occupied span in FIFO order, the rest is fresh (`none`). -/
theorem resize_buf_spec (p : PPB)
    (hh : p.head < p.buf.length) (hc : p.count ≤ p.buf.length)
    (ht : p.tail = (p.head + p.count) % p.buf.length) :
    p.resize.buf.length = p.count * 2 ∧
    ∀ i : Nat, p.resize.buf.getD i none =
      if i < p.count then p.buf.getD ((p.head + i) % p.buf.length) none
      else none := by
  have hlen : 0 < p.buf.length := Nat.lt_of_le_of_lt (Nat.zero_le _) hh
  unfold PPB.resize goCopy
  by_cases hcase : p.tail > p.head
  · -- contiguous span: head < tail, so head + count < len and tail = head + count
    have hcount_pos : 0 < p.count := by
      rcases Nat.eq_zero_or_pos p.count with h0 | h0
      · exfalso
        rw [h0, Nat.add_zero, Nat.mod_eq_of_lt hh] at ht
        omega
      · exact h0
    have hlt : p.head + p.count < p.buf.length := by
      by_contra hge
      push_neg at hge
      have hsub : (p.head + p.count) % p.buf.length
          = p.head + p.count - p.buf.length := by
        rw [Nat.mod_eq_sub_mod hge, Nat.mod_eq_of_lt (by omega)]
      omega
    have htail : p.tail = p.head + p.count := by
      rw [ht, Nat.mod_eq_of_lt hlt]
    simp only [if_pos hcase]
    have hsrclen : ((p.buf.drop p.head).take (p.tail - p.head)).length = p.count := by
      simp only [List.length_take, List.length_drop]
      omega
    constructor
    · simp only [List.length_append, List.length_take, List.length_replicate,
        List.length_drop, List.take_zero, List.length_nil]
      omega
    · intro i
      have hk : min ((List.replicate (p.count * 2) (none : Option Entry)).length - 0)
          ((p.buf.drop p.head).take (p.tail - p.head)).length = p.count := by
        simp only [List.length_replicate, hsrclen]
        omega
      simp only [List.take_zero, List.nil_append, hk]
      by_cases hi : i < p.count
      · rw [List.getD_append]
        · rw [getD_take (by omega), getD_take (by omega), getD_drop,
            Nat.mod_eq_of_lt (by omega), if_pos hi]
        · simp only [List.length_take, hsrclen]
          omega
      · rw [if_neg hi, List.getD_append_right]
        · rw [getD_drop, getD_replicate]
          split <;> rfl
        · simp only [List.length_take, hsrclen]
          omega
  · -- wrapped (or empty, or completely full) span
    push_neg at hcase
    simp only [if_neg (Nat.not_lt.mpr hcase)]
    rcases Nat.eq_zero_or_pos p.count with h0 | hcount_pos
    · -- empty queue: the new array is empty
      have hbuf0 : (List.replicate (p.count * 2) (none : Option Entry)) = [] := by
        rw [h0]; rfl
      constructor
      · simp only [hbuf0, List.length_append, List.length_take, List.length_drop,
          List.length_nil, List.length_replicate]
        omega
      · intro i
        rw [if_neg (by omega)]
        apply getD_out_of_range
        simp only [hbuf0, List.length_append, List.length_take, List.length_drop,
          List.length_nil, List.length_replicate]
        omega
    · -- wrapped: len ≤ head + count, tail = head + count - len
      have hwrap : p.buf.length ≤ p.head + p.count := by
        by_contra hlt
        push_neg at hlt
        rw [Nat.mod_eq_of_lt hlt] at ht
        omega
      have htail : p.tail = p.head + p.count - p.buf.length := by
        rw [ht, Nat.mod_eq_sub_mod hwrap, Nat.mod_eq_of_lt (by omega)]
      have hsrc1 : (p.buf.drop p.head).length = p.buf.length - p.head := by
        simp only [List.length_drop]
      have hk1 : min ((List.replicate (p.count * 2) (none : Option Entry)).length - 0)
          (p.buf.drop p.head).length = p.buf.length - p.head := by
        simp only [List.length_replicate, hsrc1]
        omega
      simp only [List.take_zero, List.nil_append, hk1]
      -- inner = src1 ++ replicate (2c - (len-h)) none
      rw [List.take_of_length_le (le_of_eq hsrc1), Nat.zero_add,
        List.drop_replicate]
      set inner : List (Option Entry) :=
        p.buf.drop p.head ++ List.replicate (p.count * 2 - (p.buf.length - p.head)) none
        with hinner_def
      have hinner_len : inner.length = p.count * 2 := by
        simp only [hinner_def, List.length_append, List.length_drop,
          List.length_replicate]
        omega
      have hsrc2 : (p.buf.take p.tail).length = p.tail := by
        simp only [List.length_take]
        omega
      have hk2 : min (inner.length - (p.buf.length - p.head))
          (p.buf.take p.tail).length = p.tail := by
        rw [hinner_len, hsrc2]
        omega
      rw [hk2]
      constructor
      · simp only [List.length_append, List.length_take, List.length_drop,
          hinner_len]
        omega
      · intro i
        by_cases hi1 : i < p.buf.length - p.head
        · -- slot comes from the first run buf[head:]
          rw [List.getD_append]
          · rw [List.getD_append]
            · rw [getD_take hi1, hinner_def, List.getD_append]
              · rw [getD_drop, Nat.mod_eq_of_lt (by omega), if_pos (by omega)]
              · simp only [List.length_drop]
                omega
            · simp only [List.length_take, hinner_len]
              omega
          · simp only [List.length_append, List.length_take, hsrc2, hinner_len]
            omega
        · by_cases hi2 : i < p.count
          · -- slot comes from the wrapped run buf[:tail]
            rw [List.getD_append]
            · rw [List.getD_append_right]
              · rw [List.length_take, hinner_len,
                  Nat.min_eq_left (by omega : p.buf.length - p.head ≤ p.count * 2),
                  getD_take (by omega), getD_take (by omega)]
                have hmod : (p.head + i) % p.buf.length
                    = i - (p.buf.length - p.head) := by
                  have h2 : p.buf.length ≤ p.head + i := by omega
                  rw [Nat.mod_eq_sub_mod h2, Nat.mod_eq_of_lt (by omega)]
                  omega
                rw [hmod, if_pos hi2]
              · simp only [List.length_take, hinner_len]
                omega
            · simp only [List.length_append, List.length_take, hsrc2, hinner_len]
              omega
          · -- fresh tail of the new array
            rw [if_neg hi2, List.getD_append_right]
            · rw [getD_drop, hinner_def, List.getD_append_right]
              · rw [getD_replicate]
                split <;> rfl
              · simp only [List.length_drop]
                omega
            · simp only [List.length_append, List.length_take, hsrc2, hinner_len]
              omega

/-! ## Characterization of the mark loops -/

/-- Ids the success loop delivers: the (possibly nil) in-pointers of the
first `n` slots from the head. -/
def headSlotIds (p : PPB) (n : Nat) : List (Option Nat) :=
  (List.range n).map fun i =>
    (p.buf.getD ((p.head + i) % p.buf.length) none).map (·.msg.id)


theorem psl_buf_length (rs : Bool) :
    ∀ (n : Nat) (p : PPB), (popSuccessLoop rs n p).buf.length = p.buf.length := by
  intro n
  induction n with
  | zero => intro p; rfl
  | succ n ih =>
    intro p
    rw [popSuccessLoop, ih]
    simp [List.length_set]

theorem psl_tail (rs : Bool) :
    ∀ (n : Nat) (p : PPB), (popSuccessLoop rs n p).tail = p.tail := by
  intro n
  induction n with
  | zero => intro p; rfl
  | succ n ih => intro p; rw [popSuccessLoop, ih]

theorem psl_count (rs : Bool) :
    ∀ (n : Nat) (p : PPB), (popSuccessLoop rs n p).count = p.count := by
  intro n
  induction n with
  | zero => intro p; rfl
  | succ n ih => intro p; rw [popSuccessLoop, ih]

theorem psl_cur (rs : Bool) :
    ∀ (n : Nat) (p : PPB), (popSuccessLoop rs n p).cur = p.cur := by
  intro n
  induction n with
  | zero => intro p; rfl
  | succ n ih => intro p; rw [popSuccessLoop, ih]

theorem psl_errors (rs : Bool) :
    ∀ (n : Nat) (p : PPB), (popSuccessLoop rs n p).errors = p.errors := by
  intro n
  induction n with
  | zero => intro p; rfl
  | succ n ih => intro p; rw [popSuccessLoop, ih]

theorem psl_head (rs : Bool) :
    ∀ (n : Nat) (p : PPB), p.head < p.buf.length →
    (popSuccessLoop rs n p).head = (p.head + n) % p.buf.length := by
  intro n
  induction n with
  | zero =>
    intro p hh
    show p.head = (p.head + 0) % p.buf.length
    rw [Nat.add_zero, Nat.mod_eq_of_lt hh]
  | succ n ih =>
    intro p hh
    have hlen : 0 < p.buf.length := by omega
    rw [popSuccessLoop, ih]
    · show ((p.head + 1) % p.buf.length + n) % (p.buf.set p.head none).length = _
      rw [List.length_set, Nat.mod_add_mod]
      congr 1
      omega
    · show (p.head + 1) % p.buf.length < (p.buf.set p.head none).length
      rw [List.length_set]
      exact Nat.mod_lt _ hlen

theorem psl_getD (rs : Bool) :
    ∀ (n : Nat) (p : PPB), n ≤ p.buf.length → p.head < p.buf.length →
    ∀ pos : Nat, (∀ i, i < n → pos ≠ (p.head + i) % p.buf.length) →
    (popSuccessLoop rs n p).buf.getD pos none = p.buf.getD pos none := by
  intro n
  induction n with
  | zero => intro p _ _ pos _; rfl
  | succ n ih =>
    intro p hn hh pos hpos
    have hlen : 0 < p.buf.length := by omega
    rw [popSuccessLoop, ih]
    · show (p.buf.set p.head none).getD pos none = _
      apply getD_set_ne
      intro hcontra
      exact hpos 0 (by omega)
        (by rw [Nat.add_zero, Nat.mod_eq_of_lt hh]; exact hcontra.symm)
    · show n ≤ (p.buf.set p.head none).length
      rw [List.length_set]
      omega
    · show (p.head + 1) % p.buf.length < (p.buf.set p.head none).length
      rw [List.length_set]
      exact Nat.mod_lt _ hlen
    · intro i hi
      show pos ≠ ((p.head + 1) % p.buf.length + i) % (p.buf.set p.head none).length
      rw [List.length_set, Nat.mod_add_mod, Nat.add_assoc]
      exact hpos (1 + i) (by omega)

theorem psl_successes (rs : Bool) :
    ∀ (n : Nat) (p : PPB), n ≤ p.buf.length → p.head < p.buf.length →
    (popSuccessLoop rs n p).successes
      = p.successes ++ (if rs then headSlotIds p n else []) := by
  intro n
  induction n with
  | zero =>
    intro p _ _
    show p.successes = _
    cases rs <;> simp [headSlotIds]
  | succ n ih =>
    intro p hn hh
    have hlen : 0 < p.buf.length := by omega
    rw [popSuccessLoop, ih]
    · cases rs
      · simp
      · simp only [if_pos rfl]
        show (p.successes ++ [(p.buf.getD p.head none).map (·.msg.id)])
            ++ headSlotIds _ n = p.successes ++ headSlotIds p (n + 1)
        rw [List.append_assoc]
        congr 1
        have hshift : ∀ (t c u : Nat) (s : List (Option Nat))
            (e : List (Option Nat × Nat)), headSlotIds
            { buf := p.buf.set p.head none, head := (p.head + 1) % p.buf.length,
              tail := t, count := c, cur := u, successes := s, errors := e } n
            = (List.range n).map fun i =>
                (p.buf.getD ((p.head + (1 + i)) % p.buf.length) none).map (·.msg.id) := by
          intro t c u s e
          rw [headSlotIds]
          apply List.map_congr_left
          intro i hmem
          have hi : i < n := List.mem_range.mp hmem
          show ((p.buf.set p.head none).getD
              (((p.head + 1) % p.buf.length + i) % (p.buf.set p.head none).length)
              none).map (·.msg.id) = _
          rw [List.length_set, Nat.mod_add_mod, Nat.add_assoc]
          have hne : p.head ≠ (p.head + (1 + i)) % p.buf.length := by
            intro hcontra
            have h0 : (p.head + 0) % p.buf.length
                = (p.head + (1 + i)) % p.buf.length := by
              rw [Nat.add_zero, Nat.mod_eq_of_lt hh]
              exact hcontra
            have := mod_shift_inj (n := p.buf.length) (by omega) (by omega) h0
            omega
          rw [getD_set_ne hne]
        rw [hshift, headSlotIds, List.range_succ_eq_map, List.map_cons,
          List.map_map, List.singleton_append]
        congr 1
        · simp [Nat.mod_eq_of_lt hh]
        · apply List.map_congr_left
          intro i hmem
          have harg : 1 + i = i + 1 := by omega
          simp only [Function.comp, Nat.succ_eq_add_one, harg]
    · show n ≤ (p.buf.set p.head none).length
      rw [List.length_set]
      omega
    · show (p.head + 1) % p.buf.length < (p.buf.set p.head none).length
      rw [List.length_set]
      exact Nat.mod_lt _ hlen

/-- Message/error pairs the failure loop delivers: the (possibly nil)
in-pointers of the first `n` slots from the head, each paired with `err`. -/
def headSlotErrs (p : PPB) (n : Nat) (err : Nat) : List (Option Nat × Nat) :=
  (List.range n).map fun i =>
    ((p.buf.getD ((p.head + i) % p.buf.length) none).map (·.msg.id), err)

theorem pfl_buf_length (err : Nat) :
    ∀ (n : Nat) (p : PPB), (popFailLoop err n p).buf.length = p.buf.length := by
  intro n
  induction n with
  | zero => intro p; rfl
  | succ n ih =>
    intro p
    rw [popFailLoop, ih]
    simp [List.length_set]

theorem pfl_tail (err : Nat) :
    ∀ (n : Nat) (p : PPB), (popFailLoop err n p).tail = p.tail := by
  intro n
  induction n with
  | zero => intro p; rfl
  | succ n ih => intro p; rw [popFailLoop, ih]

theorem pfl_count (err : Nat) :
    ∀ (n : Nat) (p : PPB), (popFailLoop err n p).count = p.count := by
  intro n
  induction n with
  | zero => intro p; rfl
  | succ n ih => intro p; rw [popFailLoop, ih]

theorem pfl_cur (err : Nat) :
    ∀ (n : Nat) (p : PPB), (popFailLoop err n p).cur = p.cur := by
  intro n
  induction n with
  | zero => intro p; rfl
  | succ n ih => intro p; rw [popFailLoop, ih]

theorem pfl_successes (err : Nat) :
    ∀ (n : Nat) (p : PPB), (popFailLoop err n p).successes = p.successes := by
  intro n
  induction n with
  | zero => intro p; rfl
  | succ n ih => intro p; rw [popFailLoop, ih]

theorem pfl_head (err : Nat) :
    ∀ (n : Nat) (p : PPB), p.head < p.buf.length →
    (popFailLoop err n p).head = (p.head + n) % p.buf.length := by
  intro n
  induction n with
  | zero =>
    intro p hh
    show p.head = (p.head + 0) % p.buf.length
    rw [Nat.add_zero, Nat.mod_eq_of_lt hh]
  | succ n ih =>
    intro p hh
    have hlen : 0 < p.buf.length := by omega
    rw [popFailLoop, ih]
    · show ((p.head + 1) % p.buf.length + n) % (p.buf.set p.head none).length = _
      rw [List.length_set, Nat.mod_add_mod]
      congr 1
      omega
    · show (p.head + 1) % p.buf.length < (p.buf.set p.head none).length
      rw [List.length_set]
      exact Nat.mod_lt _ hlen

theorem pfl_getD (err : Nat) :
    ∀ (n : Nat) (p : PPB), n ≤ p.buf.length → p.head < p.buf.length →
    ∀ pos : Nat, (∀ i, i < n → pos ≠ (p.head + i) % p.buf.length) →
    (popFailLoop err n p).buf.getD pos none = p.buf.getD pos none := by
  intro n
  induction n with
  | zero => intro p _ _ pos _; rfl
  | succ n ih =>
    intro p hn hh pos hpos
    have hlen : 0 < p.buf.length := by omega
    rw [popFailLoop, ih]
    · show (p.buf.set p.head none).getD pos none = _
      apply getD_set_ne
      intro hcontra
      exact hpos 0 (by omega)
        (by rw [Nat.add_zero, Nat.mod_eq_of_lt hh]; exact hcontra.symm)
    · show n ≤ (p.buf.set p.head none).length
      rw [List.length_set]
      omega
    · show (p.head + 1) % p.buf.length < (p.buf.set p.head none).length
      rw [List.length_set]
      exact Nat.mod_lt _ hlen
    · intro i hi
      show pos ≠ ((p.head + 1) % p.buf.length + i) % (p.buf.set p.head none).length
      rw [List.length_set, Nat.mod_add_mod, Nat.add_assoc]
      exact hpos (1 + i) (by omega)

theorem pfl_errors (err : Nat) :
    ∀ (n : Nat) (p : PPB), n ≤ p.buf.length → p.head < p.buf.length →
    (popFailLoop err n p).errors = p.errors ++ headSlotErrs p n err := by
  intro n
  induction n with
  | zero =>
    intro p _ _
    show p.errors = _
    simp [headSlotErrs]
  | succ n ih =>
    intro p hn hh
    have hlen : 0 < p.buf.length := by omega
    rw [popFailLoop, ih]
    · show (p.errors ++ [((p.buf.getD p.head none).map (·.msg.id), err)])
          ++ headSlotErrs _ n err = p.errors ++ headSlotErrs p (n + 1) err
      rw [List.append_assoc]
      congr 1
      have hshift : ∀ (t c u : Nat) (s : List (Option Nat))
          (e : List (Option Nat × Nat)), headSlotErrs
          { buf := p.buf.set p.head none, head := (p.head + 1) % p.buf.length,
            tail := t, count := c, cur := u, successes := s, errors := e } n err
          = (List.range n).map fun i =>
              ((p.buf.getD ((p.head + (1 + i)) % p.buf.length) none).map (·.msg.id),
                err) := by
        intro t c u s e
        rw [headSlotErrs]
        apply List.map_congr_left
        intro i hmem
        have hi : i < n := List.mem_range.mp hmem
        show (((p.buf.set p.head none).getD
            (((p.head + 1) % p.buf.length + i) % (p.buf.set p.head none).length)
            none).map (·.msg.id), err) = _
        rw [List.length_set, Nat.mod_add_mod, Nat.add_assoc]
        have hne : p.head ≠ (p.head + (1 + i)) % p.buf.length := by
          intro hcontra
          have h0 : (p.head + 0) % p.buf.length
              = (p.head + (1 + i)) % p.buf.length := by
            rw [Nat.add_zero, Nat.mod_eq_of_lt hh]
            exact hcontra
          have := mod_shift_inj (n := p.buf.length) (by omega) (by omega) h0
          omega
        rw [getD_set_ne hne]
      rw [hshift, headSlotErrs, List.range_succ_eq_map, List.map_cons,
        List.map_map, List.singleton_append]
      congr 1
      · simp [Nat.mod_eq_of_lt hh]
      · apply List.map_congr_left
        intro i hmem
        have harg : 1 + i = i + 1 := by omega
        simp only [Function.comp, Nat.succ_eq_add_one, harg]
    · show n ≤ (p.buf.set p.head none).length
      rw [List.length_set]
      omega
    · show (p.head + 1) % p.buf.length < (p.buf.set p.head none).length
      rw [List.length_set]
      exact Nat.mod_lt _ hlen

/-- Retry-counter bump applied by the first loop of `markFailure`. -/
def bump1 (e : Entry) : Entry := { e with retries := e.retries + 1 }

/-- Whether bumping this slot reaches exactly `Retry.Max`. -/
def hitsMax (rMax : Int) : Option Entry → Bool
  | some e => ((e.retries + 1 : Nat) : Int) == rMax
  | none => false

theorem mfb_length (rMax : Int) :
    ∀ (n : Nat) (buf : List (Option Entry)) (cur : Nat),
    (mfBumpLoop rMax buf cur n).1.length = buf.length := by
  intro n
  induction n with
  | zero => intro buf cur; rfl
  | succ n ih =>
    intro buf cur
    cases hslot : buf.getD cur none with
    | none =>
      have hstep : mfBumpLoop rMax buf cur (n + 1)
          = mfBumpLoop rMax buf ((cur + 1) % buf.length) n := by
        rw [mfBumpLoop, hslot]
      rw [hstep, ih]
    | some e =>
      have hstep : (mfBumpLoop rMax buf cur (n + 1)).1
          = (mfBumpLoop rMax (buf.set cur (some (bump1 e)))
              ((cur + 1) % buf.length) n).1 := by
        rw [mfBumpLoop, hslot]
        rfl
      rw [hstep, ih, List.length_set]

theorem mfb_getD_untouched (rMax : Int) :
    ∀ (n : Nat) (buf : List (Option Entry)) (cur : Nat),
    n ≤ buf.length → cur < buf.length →
    ∀ pos : Nat, (∀ i, i < n → pos ≠ (cur + i) % buf.length) →
    (mfBumpLoop rMax buf cur n).1.getD pos none = buf.getD pos none := by
  intro n
  induction n with
  | zero => intro buf cur _ _ pos _; rfl
  | succ n ih =>
    intro buf cur hn hc pos hpos
    have hlen : 0 < buf.length := by omega
    have hpos0 : pos ≠ cur := by
      intro hcontra
      exact hpos 0 (by omega)
        (by rw [Nat.add_zero, Nat.mod_eq_of_lt hc]; exact hcontra)
    have hposrest : ∀ i, i < n →
        pos ≠ ((cur + 1) % buf.length + i) % buf.length := by
      intro i hi
      rw [Nat.mod_add_mod, Nat.add_assoc]
      exact hpos (1 + i) (by omega)
    cases hslot : buf.getD cur none with
    | none =>
      have hstep : mfBumpLoop rMax buf cur (n + 1)
          = mfBumpLoop rMax buf ((cur + 1) % buf.length) n := by
        rw [mfBumpLoop, hslot]
      rw [hstep, ih buf ((cur + 1) % buf.length) (by omega) (Nat.mod_lt _ hlen)
        pos hposrest]
    | some e =>
      have hstep : (mfBumpLoop rMax buf cur (n + 1)).1
          = (mfBumpLoop rMax (buf.set cur (some (bump1 e)))
              ((cur + 1) % buf.length) n).1 := by
        rw [mfBumpLoop, hslot]
        rfl
      rw [hstep, ih (buf.set cur (some (bump1 e))) ((cur + 1) % buf.length)
        (by rw [List.length_set]; omega)
        (by rw [List.length_set]; exact Nat.mod_lt _ hlen) pos ?_]
      · exact getD_set_ne (fun h => hpos0 h.symm) _ _
      · intro i hi
        rw [List.length_set]
        exact hposrest i hi

theorem mfb_getD_bumped (rMax : Int) :
    ∀ (n : Nat) (buf : List (Option Entry)) (cur : Nat),
    n ≤ buf.length → cur < buf.length →
    ∀ i, i < n →
    (mfBumpLoop rMax buf cur n).1.getD ((cur + i) % buf.length) none
      = (buf.getD ((cur + i) % buf.length) none).map bump1 := by
  intro n
  induction n with
  | zero => intro buf cur _ _ i hi; omega
  | succ n ih =>
    intro buf cur hn hc i hi
    have hlen : 0 < buf.length := by omega
    have hcur_ne : ∀ j, j < n → cur ≠ ((cur + 1) % buf.length + j) % buf.length := by
      intro j hj hcontra
      rw [Nat.mod_add_mod, Nat.add_assoc] at hcontra
      have h0 : (cur + 0) % buf.length = (cur + (1 + j)) % buf.length := by
        rw [Nat.add_zero, Nat.mod_eq_of_lt hc]
        exact hcontra
      have := mod_shift_inj (n := buf.length) (by omega) (by omega) h0
      omega
    cases hslot : buf.getD cur none with
    | none =>
      have hstep : mfBumpLoop rMax buf cur (n + 1)
          = mfBumpLoop rMax buf ((cur + 1) % buf.length) n := by
        rw [mfBumpLoop, hslot]
      rcases Nat.eq_zero_or_pos i with h0 | hipos
      · subst h0
        simp only [Nat.add_zero, Nat.mod_eq_of_lt hc]
        rw [hstep,
          mfb_getD_untouched rMax n buf ((cur + 1) % buf.length) (by omega)
            (Nat.mod_lt _ hlen) cur (hcur_ne), hslot]
        rfl
      · have hdecomp : (cur + i) % buf.length
            = ((cur + 1) % buf.length + (i - 1)) % buf.length := by
          rw [Nat.mod_add_mod]
          congr 1
          omega
        rw [hstep, hdecomp,
          ih buf ((cur + 1) % buf.length) (by omega) (Nat.mod_lt _ hlen)
            (i - 1) (by omega)]
    | some e =>
      have hstep : (mfBumpLoop rMax buf cur (n + 1)).1
          = (mfBumpLoop rMax (buf.set cur (some (bump1 e)))
              ((cur + 1) % buf.length) n).1 := by
        rw [mfBumpLoop, hslot]
        rfl
      rcases Nat.eq_zero_or_pos i with h0 | hipos
      · subst h0
        simp only [Nat.add_zero, Nat.mod_eq_of_lt hc]
        rw [hstep,
          mfb_getD_untouched rMax n (buf.set cur (some (bump1 e)))
            ((cur + 1) % buf.length)
            (by rw [List.length_set]; omega)
            (by rw [List.length_set]; exact Nat.mod_lt _ hlen) cur ?_,
          getD_set_self hc, hslot]
        · rfl
        · intro j hj
          rw [List.length_set]
          exact hcur_ne j hj
      · have hdecomp : (cur + i) % buf.length
            = ((cur + 1) % buf.length + (i - 1)) % buf.length := by
          rw [Nat.mod_add_mod]
          congr 1
          omega
        have hne : cur ≠ (cur + i) % buf.length := by
          intro hcontra
          have h0 : (cur + 0) % buf.length = (cur + i) % buf.length := by
            rw [Nat.add_zero, Nat.mod_eq_of_lt hc]
            exact hcontra
          have := mod_shift_inj (n := buf.length) (by omega) (by omega) h0
          omega
        have hih := ih (buf.set cur (some (bump1 e))) ((cur + 1) % buf.length)
            (by rw [List.length_set]; omega)
            (by rw [List.length_set]; exact Nat.mod_lt _ hlen)
            (i - 1) (by omega)
        rw [List.length_set] at hih
        rw [hstep, hdecomp, hih, ← hdecomp, getD_set_ne hne]

theorem mfb_count (rMax : Int) :
    ∀ (n : Nat) (buf : List (Option Entry)) (cur : Nat),
    n ≤ buf.length → cur < buf.length →
    (mfBumpLoop rMax buf cur n).2
      = (List.range n).countP
          (fun i => hitsMax rMax (buf.getD ((cur + i) % buf.length) none)) := by
  intro n
  induction n with
  | zero => intro buf cur _ _; rfl
  | succ n ih =>
    intro buf cur hn hc
    have hlen : 0 < buf.length := by omega
    have hcur_ne : ∀ j, j < n → cur ≠ ((cur + 1) % buf.length + j) % buf.length := by
      intro j hj hcontra
      rw [Nat.mod_add_mod, Nat.add_assoc] at hcontra
      have h0 : (cur + 0) % buf.length = (cur + (1 + j)) % buf.length := by
        rw [Nat.add_zero, Nat.mod_eq_of_lt hc]
        exact hcontra
      have := mod_shift_inj (n := buf.length) (by omega) (by omega) h0
      omega
    have hshift : ∀ (bufX : List (Option Entry)), bufX.length = buf.length →
        (∀ j, j < n → bufX.getD (((cur + 1) % buf.length + j) % buf.length) none
          = buf.getD (((cur + 1) % buf.length + j) % buf.length) none) →
        (List.range n).countP
          (fun i => hitsMax rMax
            (bufX.getD (((cur + 1) % buf.length + i) % bufX.length) none))
          = (List.range n).countP
            ((fun i => hitsMax rMax (buf.getD ((cur + i) % buf.length) none))
              ∘ Nat.succ) := by
      intro bufX hlenX hsame
      apply List.countP_congr
      intro j hmem
      have hj : j < n := List.mem_range.mp hmem
      rw [hlenX, hsame j hj]
      have harg : (((cur + 1) % buf.length + j) % buf.length)
          = (cur + Nat.succ j) % buf.length := by
        rw [Nat.mod_add_mod]
        congr 1
        omega
      rw [harg]
      simp [Function.comp]
    cases hslot : buf.getD cur none with
    | none =>
      have hstep : mfBumpLoop rMax buf cur (n + 1)
          = mfBumpLoop rMax buf ((cur + 1) % buf.length) n := by
        rw [mfBumpLoop, hslot]
      rw [hstep, ih buf ((cur + 1) % buf.length) (by omega) (Nat.mod_lt _ hlen),
        List.range_succ_eq_map, List.countP_cons, List.countP_map]
      have h0 : hitsMax rMax (buf.getD ((cur + 0) % buf.length) none) = false := by
        simp only [Nat.add_zero, Nat.mod_eq_of_lt hc, hslot]
        rfl
      rw [h0]
      simp only [Bool.false_eq_true, if_false, Nat.add_zero]
      exact hshift buf rfl (fun j hj => rfl)
    | some e =>
      have hstep : mfBumpLoop rMax buf cur (n + 1)
          = ((mfBumpLoop rMax (buf.set cur (some (bump1 e)))
               ((cur + 1) % buf.length) n).1,
             (if ((e.retries + 1 : Nat) : Int) = rMax then 1 else 0)
               + (mfBumpLoop rMax (buf.set cur (some (bump1 e)))
                   ((cur + 1) % buf.length) n).2) := by
        rw [mfBumpLoop, hslot]
        rfl
      have hsnd : (mfBumpLoop rMax buf cur (n + 1)).2
          = (if ((e.retries + 1 : Nat) : Int) = rMax then 1 else 0)
            + (mfBumpLoop rMax (buf.set cur (some (bump1 e)))
                ((cur + 1) % buf.length) n).2 := by
        rw [hstep]
      have hih := ih (buf.set cur (some (bump1 e))) ((cur + 1) % buf.length)
        (by rw [List.length_set]; omega)
        (by rw [List.length_set]; exact Nat.mod_lt _ hlen)
      rw [hsnd, hih, List.range_succ_eq_map, List.countP_cons, List.countP_map]
      have h0 : hitsMax rMax (buf.getD ((cur + 0) % buf.length) none)
          = (((e.retries + 1 : Nat) : Int) == rMax) := by
        simp only [Nat.add_zero, Nat.mod_eq_of_lt hc, hslot]
        rfl
      rw [h0]
      have hcnt := hshift (buf.set cur (some (bump1 e))) (List.length_set _ _ _)
        (fun j hj => getD_set_ne (hcur_ne j hj) _ _)
      rw [hcnt]
      have hiff : ((((e.retries + 1 : Nat) : Int) == rMax) = true)
          ↔ ((e.retries + 1 : Nat) : Int) = rMax := beq_iff_eq
      by_cases hmax : ((e.retries + 1 : Nat) : Int) = rMax
      · rw [if_pos hmax, if_pos (hiff.mpr hmax), Nat.add_comm]
      · rw [if_neg hmax, if_neg (fun hb => hmax (hiff.mp hb)), Nat.add_comm]

/-! ## The well-formedness invariant -/

/-- Well-formedness of a buffer state: the backing array is a power of two
of at least the minimum capacity, indices are in range, the tail matches
head+count, the cursor never passes the live count, and every live slot
holds an entry. -/
structure WF (p : PPB) : Prop where
  pow : ∃ k : Nat, 4 ≤ k ∧ p.buf.length = 2 ^ k
  head_lt : p.head < p.buf.length
  tail_eq : p.tail = (p.head + p.count) % p.buf.length
  count_le : p.count ≤ p.buf.length
  cur_le : p.cur ≤ p.count
  live : ∀ i, i < p.count →
    (p.buf.getD ((p.head + i) % p.buf.length) none).isSome = true

theorem WF.len_pos {p : PPB} (h : WF p) : 0 < p.buf.length :=
  Nat.lt_of_le_of_lt (Nat.zero_le _) h.head_lt

theorem WF.min_len {p : PPB} (h : WF p) : minQueueLen ≤ p.buf.length := by
  obtain ⟨k, hk, hlen⟩ := h.pow
  have : (2 : Nat) ^ 4 ≤ 2 ^ k := Nat.pow_le_pow_right (by omega) hk
  rw [hlen]
  simpa [minQueueLen] using this

theorem wf_newPPB : WF newPPB := by
  refine ⟨⟨4, by omega, rfl⟩, by decide, by decide, by decide, by decide, ?_⟩
  intro i hi
  have hc : newPPB.count = 0 := rfl
  omega

/-! ## Abstraction lemmas for the live span -/

theorem drop_map_range {α : Type} (f : Nat → α) (n m : Nat) :
    ((List.range (n + m)).map f).drop n
      = (List.range m).map fun i => f (n + i) := by
  rw [List.range_add, List.map_append, List.map_map]
  have h := List.drop_left ((List.range n).map f)
    ((List.range m).map (f ∘ fun x => n + x))
  rw [List.length_map, List.length_range] at h
  rw [h]
  rfl

theorem liveSlots_length (p : PPB) : p.liveSlots.length = p.count := by
  simp [PPB.liveSlots]

theorem liveSlots_take (p : PPB) (n : Nat) (hn : n ≤ p.count) :
    p.liveSlots.take n = (List.range n).map
      (fun i => p.buf.getD ((p.head + i) % p.buf.length) none) := by
  rw [PPB.liveSlots, ← List.map_take, List.take_range, Nat.min_eq_left hn]

theorem liveSlots_drop (p : PPB) (n : Nat) (hn : n ≤ p.count) :
    p.liveSlots.drop n = (List.range (p.count - n)).map
      (fun i => p.buf.getD ((p.head + (n + i)) % p.buf.length) none) := by
  have hc : p.count = n + (p.count - n) := by omega
  conv_lhs => rw [PPB.liveSlots, hc, drop_map_range]

theorem resize_liveSlots (p : PPB)
    (hh : p.head < p.buf.length) (hc : p.count ≤ p.buf.length)
    (ht : p.tail = (p.head + p.count) % p.buf.length) :
    p.resize.liveSlots = p.liveSlots := by
  obtain ⟨hlen2, hslots⟩ := resize_buf_spec p hh hc ht
  rw [PPB.liveSlots, PPB.liveSlots]
  simp only [resize_count, resize_head]
  apply List.map_congr_left
  intro i hmem
  have hi : i < p.count := List.mem_range.mp hmem
  rw [hlen2, Nat.zero_add, Nat.mod_eq_of_lt (by omega), hslots i, if_pos hi]

theorem live_iff (p : PPB) :
    (∀ i, i < p.count →
      (p.buf.getD ((p.head + i) % p.buf.length) none).isSome = true)
    ↔ ∀ s ∈ p.liveSlots, s.isSome = true := by
  simp only [PPB.liveSlots, List.mem_map, List.mem_range]
  constructor
  · rintro h s ⟨i, hi, rfl⟩
    exact h i hi
  · intro h i hi
    exact h _ ⟨i, hi, rfl⟩

/-! ## Specification of `add` -/

theorem add_keyfail (p : PPB) (m : PMsg) (e : Nat)
    (hk : encodeOpt m.key = .error e) :
    p.add m = { p with errors := p.errors ++ [(some m.id, e)] } := by
  rw [PPB.add, hk]

theorem add_valfail (p : PPB) (m : PMsg) (key : Option (List Nat)) (e : Nat)
    (hk : encodeOpt m.key = .ok key) (hv : encodeOpt m.val = .error e) :
    p.add m = { p with errors := p.errors ++ [(some m.id, e)] } := by
  rw [PPB.add, hk, hv]

/-- The final append step of `add`, after the optional growth. -/
theorem append_entry_spec (q : PPB) (entry : Entry)
    (hh : q.head < q.buf.length) (hcnt : q.count < q.buf.length)
    (ht : q.tail = (q.head + q.count) % q.buf.length) :
    ∀ r : PPB, r =
      { q with
          buf := q.buf.set q.tail (some entry)
          tail := (q.tail + 1) % q.buf.length
          count := q.count + 1 } →
    r.liveSlots = q.liveSlots ++ [some entry] ∧
    r.head = q.head ∧ r.count = q.count + 1 ∧ r.cur = q.cur ∧
    r.successes = q.successes ∧ r.errors = q.errors ∧
    r.buf.length = q.buf.length ∧
    r.tail = (r.head + r.count) % r.buf.length := by
  intro r hr
  have hlen : 0 < q.buf.length := by omega
  have htlt : q.tail < q.buf.length := by
    rw [ht]
    exact Nat.mod_lt _ hlen
  subst hr
  refine ⟨?_, rfl, rfl, rfl, rfl, rfl, List.length_set .., ?_⟩
  · rw [PPB.liveSlots, PPB.liveSlots]
    show (List.range (q.count + 1)).map
        (fun i => (q.buf.set q.tail (some entry)).getD
          ((q.head + i) % (q.buf.set q.tail (some entry)).length) none)
      = _
    simp only [List.length_set]
    rw [List.range_succ, List.map_append, List.map_cons, List.map_nil]
    congr 1
    · apply List.map_congr_left
      intro i hmem
      have hi : i < q.count := List.mem_range.mp hmem
      apply getD_set_ne
      rw [ht]
      intro hcontra
      have := mod_shift_inj (n := q.buf.length) (by omega) (by omega) hcontra
      omega
    · rw [← ht, getD_set_self htlt]
  · show (q.tail + 1) % q.buf.length
      = (q.head + (q.count + 1)) % (q.buf.set q.tail (some entry)).length
    rw [List.length_set, ht, Nat.mod_add_mod]
    congr 1

theorem add_ok_spec (p : PPB) (m : PMsg) (key val : Option (List Nat))
    (hk : encodeOpt m.key = .ok key) (hv : encodeOpt m.val = .ok val)
    (hwf : WF p) :
    (p.add m).liveSlots = p.liveSlots
      ++ [some { msg := m, out := { key := key, value := val }, retries := 0 }] ∧
    (p.add m).count = p.count + 1 ∧
    (p.add m).cur = p.cur ∧
    (p.add m).successes = p.successes ∧
    (p.add m).errors = p.errors ∧
    (p.add m).buf.length
      = (if p.count = p.buf.length then p.count * 2 else p.buf.length) ∧
    WF (p.add m) := by
  obtain ⟨⟨k, hk4, hlenpow⟩, hh, ht, hc, hu, hlive⟩ := hwf
  have hlen : 0 < p.buf.length := by omega
  by_cases hfull : p.count = p.buf.length
  · -- grow first
    have hrs := resize_buf_spec p hh hc ht
    obtain ⟨hrlen, hrslots⟩ := hrs
    have hcount_pos : 0 < p.count := by
      have h16 : (16:Nat) ≤ 2 ^ k := by
        calc (16:Nat) = 2 ^ 4 := by norm_num
        _ ≤ 2 ^ k := Nat.pow_le_pow_right (by omega) hk4
      omega
    have hadd : p.add m =
        { p.resize with
            buf := p.resize.buf.set p.resize.tail
              (some { msg := m, out := { key := key, value := val }, retries := 0 })
            tail := (p.resize.tail + 1) % p.resize.buf.length
            count := p.resize.count + 1 } := by
      rw [PPB.add, hk, hv]
      simp only [if_pos hfull]
    have hqh : p.resize.head < p.resize.buf.length := by
      rw [resize_head, hrlen]
      omega
    have hqcnt : p.resize.count < p.resize.buf.length := by
      rw [resize_count, hrlen]
      omega
    have hqt : p.resize.tail = (p.resize.head + p.resize.count) % p.resize.buf.length := by
      rw [resize_head, resize_count, resize_tail, hrlen, Nat.zero_add,
        Nat.mod_eq_of_lt (by omega)]
    obtain ⟨hls, hhd, hcv, hcu, hsv, hev, hbl, hte⟩ :=
      append_entry_spec p.resize _ hqh hqcnt hqt (p.add m) hadd
    have hrls := resize_liveSlots p hh hc ht
    refine ⟨by rw [hls, hrls], by rw [hcv, resize_count], by rw [hcu, resize_cur],
      by rw [hsv, resize_successes], by rw [hev, resize_errors],
      by rw [if_pos hfull, hbl, hrlen], ?_⟩
    refine ⟨⟨k + 1, by omega, ?_⟩, ?_, hte, ?_, ?_, ?_⟩
    · rw [hbl, hrlen, hfull, hlenpow]
      ring
    · rw [hhd, hbl]
      exact hqh
    · rw [hcv, hbl, resize_count, hrlen]
      omega
    · rw [hcu, hcv, resize_cur, resize_count]
      omega
    · rw [(live_iff _)]
      rw [hls, hrls]
      intro s hs
      rcases List.mem_append.mp hs with hs1 | hs2
      · exact ((live_iff p).mp hlive) s hs1
      · rw [List.mem_singleton.mp hs2]
        rfl
  · -- no growth needed
    have hadd : p.add m =
        { p with
            buf := p.buf.set p.tail
              (some { msg := m, out := { key := key, value := val }, retries := 0 })
            tail := (p.tail + 1) % p.buf.length
            count := p.count + 1 } := by
      rw [PPB.add, hk, hv]
      simp only [if_neg hfull]
    obtain ⟨hls, hhd, hcv, hcu, hsv, hev, hbl, hte⟩ :=
      append_entry_spec p _ hh (by omega) ht (p.add m) hadd
    refine ⟨hls, hcv, hcu, hsv, hev, by rw [if_neg hfull, hbl], ?_⟩
    refine ⟨⟨k, hk4, by rw [hbl, hlenpow]⟩, by rw [hhd, hbl]; exact hh, hte,
      by rw [hcv, hbl]; omega, by rw [hcu, hcv]; omega, ?_⟩
    · rw [(live_iff _)]
      rw [hls]
      intro s hs
      rcases List.mem_append.mp hs with hs1 | hs2
      · exact ((live_iff p).mp hlive) s hs1
      · rw [List.mem_singleton.mp hs2]
        rfl

/-! ## Specification of the shrink check and the mark operations -/

theorem shrinkCheck_spec (p : PPB) (hwf : WF p) :
    (shrinkCheck p).liveSlots = p.liveSlots ∧
    (shrinkCheck p).count = p.count ∧
    (shrinkCheck p).cur = p.cur ∧
    (shrinkCheck p).successes = p.successes ∧
    (shrinkCheck p).errors = p.errors ∧
    WF (shrinkCheck p) ∧
    (shrinkCheck p).buf.length
      = (if minQueueLen < p.buf.length ∧ p.count * 4 = p.buf.length
         then p.count * 2 else p.buf.length) := by
  obtain ⟨⟨k, hk4, hlenpow⟩, hh, ht, hc, hu, hlive⟩ := hwf
  rw [shrinkCheck]
  by_cases hcond : minQueueLen < p.buf.length ∧ p.count * 4 = p.buf.length
  · simp only [if_pos hcond]
    obtain ⟨hgt, hquarter⟩ := hcond
    have hk5 : 5 ≤ k := by
      by_contra hlt
      push_neg at hlt
      have : p.buf.length ≤ 2 ^ 4 := by
        rw [hlenpow]
        exact Nat.pow_le_pow_right (by omega) (by omega)
      simp [minQueueLen] at hgt
      omega
    have hcount_pos : 0 < p.count := by
      have : 16 < p.count * 4 := by
        rw [hquarter]
        simpa [minQueueLen] using hgt
      omega
    obtain ⟨hrlen, hrslots⟩ := resize_buf_spec p hh hc ht
    have hcpow : p.count = 2 ^ (k - 2) := by
      have h4 : p.count * 4 = 2 ^ (k - 2) * 4 := by
        rw [hquarter, hlenpow]
        have : (4:Nat) = 2 ^ 2 := by norm_num
        rw [this, ← Nat.pow_add]
        congr 1
        omega
      omega
    refine ⟨resize_liveSlots p hh hc ht, resize_count p, resize_cur p,
      resize_successes p, resize_errors p, ?_, by rw [hrlen]⟩
    refine ⟨⟨k - 1, by omega, ?_⟩, ?_, ?_, ?_, ?_, ?_⟩
    · rw [hrlen, hcpow]
      have : (2:Nat) ^ (k - 2) * 2 = 2 ^ (k - 2) * 2 ^ 1 := by norm_num
      rw [this, ← Nat.pow_add]
      congr 1
      omega
    · rw [resize_head, hrlen]
      omega
    · rw [resize_tail, resize_head, resize_count, hrlen, Nat.zero_add,
        Nat.mod_eq_of_lt (by omega)]
    · rw [resize_count, hrlen]
      omega
    · rw [resize_cur, resize_count]
      exact hu
    · rw [live_iff, resize_liveSlots p hh hc ht]
      exact (live_iff p).mp hlive
  · rw [if_neg hcond, if_neg hcond]
    exact ⟨rfl, rfl, rfl, rfl, rfl, ⟨⟨k, hk4, hlenpow⟩, hh, ht, hc, hu, hlive⟩, rfl⟩

theorem markSuccess_spec (conf : Config) (p : PPB) (n : Nat)
    (hwf : WF p) (hn : n ≤ p.cur) :
    (p.markSuccess conf n).liveSlots = p.liveSlots.drop n ∧
    (p.markSuccess conf n).count = p.count - n ∧
    (p.markSuccess conf n).cur = p.cur - n ∧
    (p.markSuccess conf n).errors = p.errors ∧
    (p.markSuccess conf n).successes
      = p.successes ++ (if conf.returnSuccesses then headSlotIds p n else []) ∧
    WF (p.markSuccess conf n) ∧
    (p.markSuccess conf n).buf.length
      = (if minQueueLen < p.buf.length ∧ (p.count - n) * 4 = p.buf.length
         then (p.count - n) * 2 else p.buf.length) := by
  obtain ⟨⟨k, hk4, hlenpow⟩, hh, ht, hc, hu, hlive⟩ := hwf
  have hnc : n ≤ p.count := by omega
  have hnl : n ≤ p.buf.length := by omega
  have hlen : 0 < p.buf.length := by omega
  set rs := conf.returnSuccesses with hrs
  -- the state after the pop loop and the count/cur update
  set p2 : PPB :=
    { popSuccessLoop rs n p with
        count := (popSuccessLoop rs n p).count - n
        cur := (popSuccessLoop rs n p).cur - n } with hp2
  have hstep : p.markSuccess conf n = shrinkCheck p2 := rfl
  have h2len : p2.buf.length = p.buf.length := psl_buf_length rs n p
  have h2head : p2.head = (p.head + n) % p.buf.length := psl_head rs n p hh
  have h2tail : p2.tail = p.tail := psl_tail rs n p
  have h2count : p2.count = p.count - n := by
    show (popSuccessLoop rs n p).count - n = p.count - n
    rw [psl_count]
  have h2cur : p2.cur = p.cur - n := by
    show (popSuccessLoop rs n p).cur - n = p.cur - n
    rw [psl_cur]
  have h2succ : p2.successes = p.successes ++ (if rs then headSlotIds p n else []) :=
    psl_successes rs n p hnl hh
  have h2err : p2.errors = p.errors := psl_errors rs n p
  have h2slot : ∀ i, i < p.count - n →
      p2.buf.getD ((p2.head + i) % p2.buf.length) none
        = p.buf.getD ((p.head + (n + i)) % p.buf.length) none := by
    intro i hi
    have hpos : (p2.head + i) % p2.buf.length
        = (p.head + (n + i)) % p.buf.length := by
      rw [h2len, h2head, Nat.mod_add_mod, Nat.add_assoc]
    rw [hpos]
    show (popSuccessLoop rs n p).buf.getD _ none = _
    apply psl_getD rs n p hnl hh
    intro j hj hcontra
    have := mod_shift_inj (n := p.buf.length) (i := n + i) (j := j)
      (by omega) (by omega) hcontra
    omega
  have h2live : p2.liveSlots = p.liveSlots.drop n := by
    rw [PPB.liveSlots, liveSlots_drop p n hnc, h2count]
    apply List.map_congr_left
    intro i hmem
    exact h2slot i (List.mem_range.mp hmem)
  have h2wf : WF p2 := by
    refine ⟨⟨k, hk4, by rw [h2len, hlenpow]⟩, ?_, ?_, ?_, ?_, ?_⟩
    · rw [h2len, h2head]
      exact Nat.mod_lt _ hlen
    · rw [h2tail, h2len, h2head, h2count, Nat.mod_add_mod, ht]
      congr 1
      omega
    · rw [h2count, h2len]
      omega
    · rw [h2count, h2cur]
      omega
    · rw [live_iff, h2live]
      intro s hs
      exact (live_iff p).mp hlive s (List.mem_of_mem_drop hs)
  obtain ⟨hcl, hcc, hcu2, hcs, hce, hcwf, hclen⟩ := shrinkCheck_spec p2 h2wf
  rw [hstep]
  refine ⟨by rw [hcl, h2live], by rw [hcc, h2count], by rw [hcu2, h2cur],
    by rw [hce, h2err], by rw [hcs, h2succ], hcwf, ?_⟩
  rw [hclen, h2len, h2count]

theorem markImmediateFailure_spec (p : PPB) (n err : Nat)
    (hwf : WF p) (hn : n ≤ p.cur) :
    (p.markImmediateFailure n err).liveSlots = p.liveSlots.drop n ∧
    (p.markImmediateFailure n err).count = p.count - n ∧
    (p.markImmediateFailure n err).cur = p.cur - n ∧
    (p.markImmediateFailure n err).successes = p.successes ∧
    (p.markImmediateFailure n err).errors = p.errors ++ headSlotErrs p n err ∧
    WF (p.markImmediateFailure n err) ∧
    (p.markImmediateFailure n err).buf.length
      = (if minQueueLen < p.buf.length ∧ (p.count - n) * 4 = p.buf.length
         then (p.count - n) * 2 else p.buf.length) := by
  obtain ⟨⟨k, hk4, hlenpow⟩, hh, ht, hc, hu, hlive⟩ := hwf
  have hnc : n ≤ p.count := by omega
  have hnl : n ≤ p.buf.length := by omega
  have hlen : 0 < p.buf.length := by omega
  set p2 : PPB :=
    { popFailLoop err n p with
        count := (popFailLoop err n p).count - n
        cur := (popFailLoop err n p).cur - n } with hp2
  have hstep : p.markImmediateFailure n err = shrinkCheck p2 := rfl
  have h2len : p2.buf.length = p.buf.length := pfl_buf_length err n p
  have h2head : p2.head = (p.head + n) % p.buf.length := pfl_head err n p hh
  have h2tail : p2.tail = p.tail := pfl_tail err n p
  have h2count : p2.count = p.count - n := by
    show (popFailLoop err n p).count - n = p.count - n
    rw [pfl_count]
  have h2cur : p2.cur = p.cur - n := by
    show (popFailLoop err n p).cur - n = p.cur - n
    rw [pfl_cur]
  have h2succ : p2.successes = p.successes := pfl_successes err n p
  have h2err : p2.errors = p.errors ++ headSlotErrs p n err :=
    pfl_errors err n p hnl hh
  have h2slot : ∀ i, i < p.count - n →
      p2.buf.getD ((p2.head + i) % p2.buf.length) none
        = p.buf.getD ((p.head + (n + i)) % p.buf.length) none := by
    intro i hi
    have hpos : (p2.head + i) % p2.buf.length
        = (p.head + (n + i)) % p.buf.length := by
      rw [h2len, h2head, Nat.mod_add_mod, Nat.add_assoc]
    rw [hpos]
    show (popFailLoop err n p).buf.getD _ none = _
    apply pfl_getD err n p hnl hh
    intro j hj hcontra
    have := mod_shift_inj (n := p.buf.length) (i := n + i) (j := j)
      (by omega) (by omega) hcontra
    omega
  have h2live : p2.liveSlots = p.liveSlots.drop n := by
    rw [PPB.liveSlots, liveSlots_drop p n hnc, h2count]
    apply List.map_congr_left
    intro i hmem
    exact h2slot i (List.mem_range.mp hmem)
  have h2wf : WF p2 := by
    refine ⟨⟨k, hk4, by rw [h2len, hlenpow]⟩, ?_, ?_, ?_, ?_, ?_⟩
    · rw [h2len, h2head]
      exact Nat.mod_lt _ hlen
    · rw [h2tail, h2len, h2head, h2count, Nat.mod_add_mod, ht]
      congr 1
      omega
    · rw [h2count, h2len]
      omega
    · rw [h2count, h2cur]
      omega
    · rw [live_iff, h2live]
      intro s hs
      exact (live_iff p).mp hlive s (List.mem_of_mem_drop hs)
  obtain ⟨hcl, hcc, hcu2, hcs, hce, hcwf, hclen⟩ := shrinkCheck_spec p2 h2wf
  rw [hstep]
  refine ⟨by rw [hcl, h2live], by rw [hcc, h2count], by rw [hcu2, h2cur],
    by rw [hcs, h2succ], by rw [hce, h2err], hcwf, ?_⟩
  rw [hclen, h2len, h2count]

theorem opt_ids_bump (x : Option Entry) :
    (x.map bump1).map (·.msg.id) = x.map (·.msg.id) := by
  cases x <;> rfl

theorem isSome_map_bump (x : Option Entry) :
    (x.map bump1).isSome = x.isSome := by
  cases x <;> rfl

theorem markFailure_spec (conf : Config) (p : PPB) (n err : Nat)
    (hwf : WF p) (hn : n ≤ p.count) :
    p.mfAbandoned conf n ≤ n ∧
    p.mfAbandoned conf n = (List.range n).countP
      (fun i => hitsMax conf.retryMax
        (p.buf.getD ((p.head + i) % p.buf.length) none)) ∧
    (p.markFailure conf n err).liveSlots
      = (List.range (p.count - p.mfAbandoned conf n)).map (fun i =>
          if p.mfAbandoned conf n + i < n
          then (p.buf.getD ((p.head + (p.mfAbandoned conf n + i))
                  % p.buf.length) none).map bump1
          else p.buf.getD ((p.head + (p.mfAbandoned conf n + i))
                  % p.buf.length) none) ∧
    (p.markFailure conf n err).count = p.count - p.mfAbandoned conf n ∧
    (p.markFailure conf n err).cur = p.cur - p.mfAbandoned conf n ∧
    (p.markFailure conf n err).successes = p.successes ∧
    (p.markFailure conf n err).errors
      = p.errors ++ headSlotErrs p (p.mfAbandoned conf n) err ∧
    WF (p.markFailure conf n err) ∧
    (p.markFailure conf n err).buf.length
      = (if minQueueLen < p.buf.length
           ∧ (p.count - p.mfAbandoned conf n) * 4 = p.buf.length
         then (p.count - p.mfAbandoned conf n) * 2 else p.buf.length) := by
  obtain ⟨⟨k0, hk4, hlenpow⟩, hh, ht, hc, hu, hlive⟩ := hwf
  have hnc : n ≤ p.count := hn
  have hnl : n ≤ p.buf.length := by omega
  have hlen : 0 < p.buf.length := by omega
  set k := p.mfAbandoned conf n with hkdef
  set B := (mfBumpLoop conf.retryMax p.buf p.head n).1 with hBdef
  set pMid : PPB := { p with buf := B } with hpmiddef
  set p2 := popFailLoop err k pMid with hp2def
  have hstep : p.markFailure conf n err = shrinkCheck
      { p2 with count := p2.count - k, cur := p2.cur - k } := rfl
  have hkcount : k = (List.range n).countP
      (fun i => hitsMax conf.retryMax
        (p.buf.getD ((p.head + i) % p.buf.length) none)) := by
    rw [hkdef]
    exact mfb_count conf.retryMax n p.buf p.head hnl hh
  have hk_le : k ≤ n := by
    rw [hkcount]
    calc (List.range n).countP _ ≤ (List.range n).length :=
          List.countP_le_length _
    _ = n := List.length_range n
  have hBlen : B.length = p.buf.length := mfb_length conf.retryMax n p.buf p.head
  have hMidlen : pMid.buf.length = p.buf.length := hBlen
  have hMidhead : pMid.head = p.head := rfl
  have hbumped : ∀ i, i < n →
      pMid.buf.getD ((p.head + i) % p.buf.length) none
        = (p.buf.getD ((p.head + i) % p.buf.length) none).map bump1 :=
    fun i hi => mfb_getD_bumped conf.retryMax n p.buf p.head hnl hh i hi
  have huntouched : ∀ pos : Nat, (∀ j, j < n → pos ≠ (p.head + j) % p.buf.length) →
      pMid.buf.getD pos none = p.buf.getD pos none :=
    fun pos hpos => mfb_getD_untouched conf.retryMax n p.buf p.head hnl hh pos hpos
  have hkl : k ≤ pMid.buf.length := by rw [hMidlen]; omega
  have hhm : pMid.head < pMid.buf.length := by rw [hMidlen, hMidhead]; exact hh
  have h2len : p2.buf.length = p.buf.length := by
    rw [hp2def, pfl_buf_length, hMidlen]
  have h2head : p2.head = (p.head + k) % p.buf.length := by
    rw [hp2def, pfl_head err k pMid hhm, hMidhead, hMidlen]
  have h2tail : p2.tail = p.tail := by rw [hp2def, pfl_tail]
  have h2count : p2.count = p.count := by rw [hp2def, pfl_count]
  have h2cur : p2.cur = p.cur := by rw [hp2def, pfl_cur]
  have h2succ : p2.successes = p.successes := by rw [hp2def, pfl_successes]
  have herr_eq : headSlotErrs pMid k err = headSlotErrs p k err := by
    rw [headSlotErrs, headSlotErrs]
    apply List.map_congr_left
    intro i hmem
    have hi : i < k := List.mem_range.mp hmem
    show ((pMid.buf.getD ((pMid.head + i) % pMid.buf.length) none).map (·.msg.id),
        err) = _
    rw [hMidhead, hMidlen, hbumped i (by omega), opt_ids_bump]
  have h2err : p2.errors = p.errors ++ headSlotErrs p k err := by
    rw [hp2def, pfl_errors err k pMid hkl hhm, herr_eq]
  have h2slot : ∀ i, i < p.count - k →
      p2.buf.getD ((p2.head + i) % p2.buf.length) none
        = (if k + i < n
           then (p.buf.getD ((p.head + (k + i)) % p.buf.length) none).map bump1
           else p.buf.getD ((p.head + (k + i)) % p.buf.length) none) := by
    intro i hi
    have hpos : (p2.head + i) % p2.buf.length
        = (p.head + (k + i)) % p.buf.length := by
      rw [h2len, h2head, Nat.mod_add_mod, Nat.add_assoc]
    rw [hpos, hp2def]
    have hmid : (popFailLoop err k pMid).buf.getD
        ((p.head + (k + i)) % p.buf.length) none
        = pMid.buf.getD ((p.head + (k + i)) % p.buf.length) none := by
      have := pfl_getD err k pMid hkl hhm
        ((p.head + (k + i)) % p.buf.length) ?_
      · exact this
      · intro j hj
        rw [hMidhead, hMidlen]
        intro hcontra
        have := mod_shift_inj (n := p.buf.length) (i := k + i) (j := j)
          (by omega) (by omega) hcontra
        omega
    rw [hmid]
    by_cases hin : k + i < n
    · rw [if_pos hin, hbumped (k + i) hin]
    · rw [if_neg hin]
      apply huntouched
      intro j hj hcontra
      have := mod_shift_inj (n := p.buf.length) (i := k + i) (j := j)
        (by omega) (by omega) hcontra
      omega
  set p3 : PPB := { p2 with count := p2.count - k, cur := p2.cur - k } with hp3def
  have h3count : p3.count = p.count - k := by
    show p2.count - k = p.count - k
    rw [h2count]
  have h3cur : p3.cur = p.cur - k := by
    show p2.cur - k = p.cur - k
    rw [h2cur]
  have h3live : p3.liveSlots
      = (List.range (p.count - k)).map (fun i =>
          if k + i < n
          then (p.buf.getD ((p.head + (k + i)) % p.buf.length) none).map bump1
          else p.buf.getD ((p.head + (k + i)) % p.buf.length) none) := by
    rw [PPB.liveSlots, h3count]
    apply List.map_congr_left
    intro i hmem
    have hi : i < p.count - k := List.mem_range.mp hmem
    have : p3.buf.getD ((p3.head + i) % p3.buf.length) none
        = p2.buf.getD ((p2.head + i) % p2.buf.length) none := rfl
    rw [this, h2slot i hi]
  have h3wf : WF p3 := by
    refine ⟨⟨k0, hk4, ?_⟩, ?_, ?_, ?_, ?_, ?_⟩
    · show p2.buf.length = 2 ^ k0
      rw [h2len, hlenpow]
    · show p2.head < p2.buf.length
      rw [h2len, h2head]
      exact Nat.mod_lt _ hlen
    · show p2.tail = (p2.head + p3.count) % p2.buf.length
      rw [h2tail, h2len, h2head, h3count, Nat.mod_add_mod, ht]
      congr 1
      omega
    · show p3.count ≤ p2.buf.length
      rw [h3count, h2len]
      omega
    · show p3.cur ≤ p3.count
      rw [h3count, h3cur]
      omega
    · rw [live_iff, h3live]
      intro s hs
      obtain ⟨i, hmem, rfl⟩ := List.mem_map.mp hs
      have hi : i < p.count - k := List.mem_range.mp hmem
      split
      · rw [isSome_map_bump]
        exact hlive (k + i) (by omega)
      · exact hlive (k + i) (by omega)
  obtain ⟨hcl, hcc, hcu2, hcs, hce, hcwf, hclen⟩ := shrinkCheck_spec p3 h3wf
  rw [hstep]
  refine ⟨hk_le, hkcount, by rw [hcl, h3live], by rw [hcc, h3count],
    by rw [hcu2, h3cur], ?_, ?_, hcwf, ?_⟩
  · rw [hcs]
    show p2.successes = p.successes
    exact h2succ
  · rw [hce]
    show p2.errors = _
    exact h2err
  · rw [hclen]
    show (if minQueueLen < p2.buf.length ∧ p3.count * 4 = p2.buf.length
        then p3.count * 2 else p2.buf.length) = _
    rw [h2len, h3count]

/-! ## Preservation of well-formedness along valid traces -/

theorem hasNext_iff (p : PPB) :
    p.hasNext = true ↔ 0 < p.count ∧ p.cur < p.count := by
  rw [PPB.hasNext]
  simp

theorem wf_next (p : PPB) (hwf : WF p) (h : p.hasNext = true) : WF (p.next).2 := by
  obtain ⟨hpos, hcur⟩ := (hasNext_iff p).mp h
  obtain ⟨hpow, hh, ht, hc, _, hlive⟩ := hwf
  exact ⟨hpow, hh, ht, hc, hcur, hlive⟩

theorem wf_applyOp (conf : Config) (p : PPB) (op : Op)
    (hwf : WF p) (hv : validOp p op = true) : WF (applyOp conf p op) := by
  cases op with
  | add m =>
    show WF (p.add m)
    cases hk : encodeOpt m.key with
    | error e =>
      rw [add_keyfail p m e hk]
      obtain ⟨hpow, hh, ht, hc, hu, hlive⟩ := hwf
      exact ⟨hpow, hh, ht, hc, hu, hlive⟩
    | ok key =>
      cases hval : encodeOpt m.val with
      | error e =>
        rw [add_valfail p m key e hk hval]
        obtain ⟨hpow, hh, ht, hc, hu, hlive⟩ := hwf
        exact ⟨hpow, hh, ht, hc, hu, hlive⟩
      | ok val =>
        exact (add_ok_spec p m key val hk hval hwf).2.2.2.2.2.2
  | next =>
    exact wf_next p hwf hv
  | markSuccess n =>
    have hn : n ≤ p.cur := of_decide_eq_true hv
    exact (markSuccess_spec conf p n hwf hn).2.2.2.2.2.1
  | markFailure n err =>
    have hn : n ≤ p.cur := of_decide_eq_true hv
    exact (markFailure_spec conf p n err hwf
      (Nat.le_trans hn hwf.cur_le)).2.2.2.2.2.2.2.1
  | markImmediateFailure n err =>
    have hn : n ≤ p.cur := of_decide_eq_true hv
    exact (markImmediateFailure_spec p n err hwf hn).2.2.2.2.2.1

theorem reach_wf (conf : Config) (p : PPB) (h : Reach conf p) : WF p := by
  induction h with
  | init => exact wf_newPPB
  | step p op hr hv ih => exact wf_applyOp conf p op ih hv

/-! ## Claim theorems -/

def cfgW : Config := { retryMax := 3, returnSuccesses := true }

def msgW (j : Nat) : PMsg := { id := j, key := none, val := none }

/-- C7: for every sequence of operations in which `next` is called only
when `hasNext()` is true and each mark call is applied with `n` at most the
current cursor, every reachable buffer state satisfies
`cursor ≤ count ≤ capacity`; the head index is always strictly below the
backing length and the tail is exactly `(head + count)` reduced modulo the
current backing length, so all index arithmetic stays modulo the current
capacity (`0 ≤ cursor` holds by the `Nat` embedding of the Go ints, which
is faithful under these preconditions). -/
theorem c7_index_invariant (conf : Config) (p : PPB) (h : Reach conf p) :
    p.cur ≤ p.count ∧ p.count ≤ p.buf.length ∧
    p.head < p.buf.length ∧
    p.tail = (p.head + p.count) % p.buf.length := by
  have hwf := reach_wf conf p h
  exact ⟨hwf.cur_le, hwf.count_le, hwf.head_lt, hwf.tail_eq⟩

theorem c7_index_invariant_witness :
    (applyOp cfgW (applyOp cfgW newPPB (.add (msgW 0))) .next).cur
      ≤ (applyOp cfgW (applyOp cfgW newPPB (.add (msgW 0))) .next).count ∧
    (applyOp cfgW (applyOp cfgW newPPB (.add (msgW 0))) .next).count
      ≤ (applyOp cfgW (applyOp cfgW newPPB (.add (msgW 0))) .next).buf.length ∧
    (applyOp cfgW (applyOp cfgW newPPB (.add (msgW 0))) .next).head
      < (applyOp cfgW (applyOp cfgW newPPB (.add (msgW 0))) .next).buf.length ∧
    (applyOp cfgW (applyOp cfgW newPPB (.add (msgW 0))) .next).tail
      = ((applyOp cfgW (applyOp cfgW newPPB (.add (msgW 0))) .next).head
          + (applyOp cfgW (applyOp cfgW newPPB (.add (msgW 0))) .next).count)
        % (applyOp cfgW (applyOp cfgW newPPB (.add (msgW 0))) .next).buf.length :=
  c7_index_invariant cfgW _
    (Reach.step _ .next (Reach.step _ (.add (msgW 0)) Reach.init (by decide))
      (by decide))

/-- C8: for every buffer state with `count` live entries — including the
wraparound case — `resize` produces a backing array of length `2·count`
whose first `count` slots hold exactly the previous live entries in the
same FIFO order, with the head reset to 0 and the tail to `count`. -/
theorem c8_resize_correct (p : PPB)
    (hh : p.head < p.buf.length) (hc : p.count ≤ p.buf.length)
    (ht : p.tail = (p.head + p.count) % p.buf.length) :
    p.resize.buf.length = 2 * p.count ∧
    p.resize.head = 0 ∧ p.resize.tail = p.count ∧
    (∀ i, i < p.count → p.resize.buf.getD i none
        = p.buf.getD ((p.head + i) % p.buf.length) none) ∧
    p.resize.liveSlots = p.liveSlots := by
  obtain ⟨hlen, hslots⟩ := resize_buf_spec p hh hc ht
  refine ⟨by rw [hlen]; ring, resize_head p, resize_tail p, ?_,
    resize_liveSlots p hh hc ht⟩
  intro i hi
  rw [hslots i, if_pos hi]

def entW (j : Nat) : Entry := { msg := msgW j, out := { key := none, value := none }, retries := 0 }

/-- A wrapped buffer state: 3 live entries at positions 14, 15, 0 of a
16-slot array. -/
def ppbWrapW : PPB :=
  { buf := [some (entW 2)] ++ List.replicate 13 none
      ++ [some (entW 0), some (entW 1)]
    head := 14, tail := 1, count := 3, cur := 0
    successes := [], errors := [] }

theorem c8_resize_correct_witness :
    (ppbWrapW.head < ppbWrapW.buf.length ∧ ppbWrapW.count ≤ ppbWrapW.buf.length ∧
      ppbWrapW.tail = (ppbWrapW.head + ppbWrapW.count) % ppbWrapW.buf.length) ∧
    (ppbWrapW.resize.buf.length = 2 * ppbWrapW.count ∧
      ppbWrapW.resize.head = 0 ∧ ppbWrapW.resize.tail = ppbWrapW.count ∧
      (∀ i, i < ppbWrapW.count → ppbWrapW.resize.buf.getD i none
          = ppbWrapW.buf.getD ((ppbWrapW.head + i) % ppbWrapW.buf.length) none) ∧
      ppbWrapW.resize.liveSlots = ppbWrapW.liveSlots) :=
  ⟨⟨by decide, by decide, by decide⟩,
    c8_resize_correct ppbWrapW (by decide) (by decide) (by decide)⟩

/-- C6: for every `ProducerMessage` whose key or value Encoder fails,
`add` delivers the message immediately to the error path (one entry on the
error channel) and leaves the backing array, head, tail, count, cursor and
success channel completely unchanged: the message never enters the buffer. -/
theorem c6_encode_failure (p : PPB) (m : PMsg)
    (hfail : (∃ e, encodeOpt m.key = .error e)
      ∨ (∃ e, encodeOpt m.val = .error e)) :
    ∃ err : Nat,
      (p.add m).errors = p.errors ++ [(some m.id, err)] ∧
      (p.add m).buf = p.buf ∧ (p.add m).head = p.head ∧
      (p.add m).tail = p.tail ∧ (p.add m).count = p.count ∧
      (p.add m).cur = p.cur ∧ (p.add m).successes = p.successes := by
  cases hk : encodeOpt m.key with
  | error e =>
    refine ⟨e, ?_⟩
    rw [add_keyfail p m e hk]
    exact ⟨rfl, rfl, rfl, rfl, rfl, rfl, rfl⟩
  | ok key =>
    cases hv : encodeOpt m.val with
    | error e =>
      refine ⟨e, ?_⟩
      rw [add_valfail p m key e hk hv]
      exact ⟨rfl, rfl, rfl, rfl, rfl, rfl, rfl⟩
    | ok val =>
      exfalso
      rcases hfail with ⟨e, he⟩ | ⟨e, he⟩
      · rw [hk] at he
        exact Except.noConfusion he
      · rw [hv] at he
        exact Except.noConfusion he

def badMsgW : PMsg := { id := 9, key := some (.fail 42), val := none }

theorem c6_encode_failure_witness :
    ((∃ e, encodeOpt badMsgW.key = .error e)
      ∨ (∃ e, encodeOpt badMsgW.val = .error e)) ∧
    ∃ err : Nat,
      (newPPB.add badMsgW).errors = newPPB.errors ++ [(some badMsgW.id, err)] ∧
      (newPPB.add badMsgW).buf = newPPB.buf ∧
      (newPPB.add badMsgW).head = newPPB.head ∧
      (newPPB.add badMsgW).tail = newPPB.tail ∧
      (newPPB.add badMsgW).count = newPPB.count ∧
      (newPPB.add badMsgW).cur = newPPB.cur ∧
      (newPPB.add badMsgW).successes = newPPB.successes :=
  ⟨Or.inl ⟨42, rfl⟩, c6_encode_failure newPPB badMsgW (Or.inl ⟨42, rfl⟩)⟩

/-! ## C5: repeated `markFailure(1, err)` on a single pending entry -/

theorem single_count {q : PPB} {en : Entry} (hls : q.liveSlots = [some en]) :
    q.count = 1 := by
  have h1 := liveSlots_length q
  rw [hls] at h1
  simpa using h1.symm

theorem range_one_eq : List.range 1 = [0] := rfl

theorem single_slot {q : PPB} {en : Entry} (hls : q.liveSlots = [some en]) :
    q.buf.getD (q.head % q.buf.length) none = some en := by
  have hcount : q.count = 1 := single_count hls
  rw [PPB.liveSlots, hcount, range_one_eq, List.map_cons, List.map_nil] at hls
  have h0 := (List.cons.injEq _ _ _ _).mp hls |>.1
  simpa using h0

theorem single_abandoned (conf : Config) (q : PPB) (en : Entry)
    (hh : q.head < q.buf.length)
    (hslot : q.buf.getD (q.head % q.buf.length) none = some en) :
    q.mfAbandoned conf 1
      = (if ((en.retries + 1 : Nat) : Int) = conf.retryMax then 1 else 0) := by
  rw [PPB.mfAbandoned, mfb_count conf.retryMax 1 q.buf q.head (by omega) hh]
  simp only [range_one_eq, List.countP_cons, List.countP_nil, Nat.zero_add,
    Nat.add_zero, hslot, hitsMax]
  by_cases heq : ((en.retries + 1 : Nat) : Int) = conf.retryMax
  · rw [if_pos (beq_iff_eq.mpr heq), if_pos heq]
  · rw [if_neg (fun hb => heq (beq_iff_eq.mp hb)), if_neg heq]

theorem mf1_not_max (conf : Config) (q : PPB) (en : Entry) (err : Nat)
    (hwf : WF q) (hcur : q.cur = 1) (hls : q.liveSlots = [some en])
    (hne : ((en.retries + 1 : Nat) : Int) ≠ conf.retryMax) :
    WF (q.markFailure conf 1 err) ∧
    (q.markFailure conf 1 err).cur = 1 ∧
    (q.markFailure conf 1 err).liveSlots = [some (bump1 en)] ∧
    (q.markFailure conf 1 err).errors = q.errors ∧
    (q.markFailure conf 1 err).successes = q.successes := by
  have hcount : q.count = 1 := single_count hls
  have hslot := single_slot hls
  have hk0 : q.mfAbandoned conf 1 = 0 := by
    rw [single_abandoned conf q en hwf.head_lt hslot, if_neg hne]
  obtain ⟨_, _, hlive, hcnt, hcur2, hsucc, herr, hwf2, _⟩ :=
    markFailure_spec conf q 1 err hwf (by omega)
  refine ⟨hwf2, by rw [hcur2, hk0, hcur], ?_, ?_, hsucc⟩
  · rw [hlive, hk0, hcount]
    simp only [Nat.sub_zero, range_one_eq, List.map_cons, List.map_nil,
      Nat.zero_add, Nat.add_zero]
    rw [if_pos (by omega), hslot]
    rfl
  · rw [herr, hk0, headSlotErrs]
    simp

theorem mf1_max (conf : Config) (q : PPB) (en : Entry) (err : Nat)
    (hwf : WF q) (hcur : q.cur = 1) (hls : q.liveSlots = [some en])
    (heq : ((en.retries + 1 : Nat) : Int) = conf.retryMax) :
    (q.markFailure conf 1 err).errors = q.errors ++ [(some en.msg.id, err)] ∧
    (q.markFailure conf 1 err).count = 0 := by
  have hcount : q.count = 1 := single_count hls
  have hslot := single_slot hls
  have hk1 : q.mfAbandoned conf 1 = 1 := by
    rw [single_abandoned conf q en hwf.head_lt hslot, if_pos heq]
  obtain ⟨_, _, _, hcnt, _, _, herr, _, _⟩ :=
    markFailure_spec conf q 1 err hwf (by omega)
  constructor
  · rw [herr, hk1, headSlotErrs]
    simp only [range_one_eq, List.map_cons, List.map_nil, Nat.add_zero]
    rw [hslot]
    rfl
  · rw [hcnt, hk1, hcount]

/-- C5: for a buffer holding a single pending entry with retry counter 0
(and `Producer.Retry.Max ≥ 1`), calling `markFailure(1, err)` repeatedly
exactly `Retry.Max` times abandons the entry and delivers it on the error
channel exactly once, paired with that same `err`; before the final call
it is never delivered, and afterwards it is gone from the buffer. -/
theorem c5_retry_abandonment (conf : Config) (p0 : PPB) (e : Entry) (err : Nat)
    (hwf : WF p0) (hmax : 1 ≤ conf.retryMax) (hcur : p0.cur = 1)
    (hls : p0.liveSlots = [some e]) (hret : e.retries = 0) :
    (∀ j, j < conf.retryMax.toNat →
      ((fun q => q.markFailure conf 1 err)^[j] p0).errors = p0.errors) ∧
    ((fun q => q.markFailure conf 1 err)^[conf.retryMax.toNat] p0).errors
      = p0.errors ++ [(some e.msg.id, err)] ∧
    ((fun q => q.markFailure conf 1 err)^[conf.retryMax.toNat] p0).count = 0 := by
  set M := conf.retryMax.toNat with hMdef
  have hM1 : 1 ≤ M := by omega
  have hMcast : (M : Int) = conf.retryMax := Int.toNat_of_nonneg (by omega)
  set f : PPB → PPB := fun q => q.markFailure conf 1 err with hfdef
  have key : ∀ j, j + 1 ≤ M →
      WF (f^[j] p0) ∧ (f^[j] p0).cur = 1 ∧
      (f^[j] p0).liveSlots = [some { e with retries := j }] ∧
      (f^[j] p0).errors = p0.errors ∧
      (f^[j] p0).successes = p0.successes := by
    intro j
    induction j with
    | zero =>
      intro _
      refine ⟨hwf, hcur, ?_, rfl, rfl⟩
      rw [Function.iterate_zero_apply, hls, ← hret]
    | succ j ih =>
      intro hj
      obtain ⟨hwfj, hcurj, hlsj, herrj, hsuccj⟩ := ih (by omega)
      have hne : (({ e with retries := j } : Entry).retries + 1 : Int)
          ≠ conf.retryMax := by
        show ((j + 1 : Nat) : Int) ≠ conf.retryMax
        rw [← hMcast]
        intro hcontra
        have : j + 1 = M := by exact_mod_cast hcontra
        omega
      obtain ⟨hwf', hcur', hls', herr', hsucc'⟩ :=
        mf1_not_max conf (f^[j] p0) { e with retries := j } err
          hwfj hcurj hlsj hne
      rw [Function.iterate_succ_apply']
      exact ⟨hwf', hcur', by rw [hls']; rfl, by rw [herr', herrj],
        by rw [hsucc', hsuccj]⟩
  have hbefore : ∀ j, j < M →
      (f^[j] p0).errors = p0.errors := by
    intro j hj
    exact (key j (by omega)).2.2.2.1
  obtain ⟨hwfl, hcurl, hlsl, herrl, _⟩ := key (M - 1) (by omega)
  have hlast : (({ e with retries := M - 1 } : Entry).retries + 1 : Int)
      = conf.retryMax := by
    show ((M - 1 + 1 : Nat) : Int) = conf.retryMax
    rw [← hMcast]
    congr 1
    omega
  obtain ⟨herrF, hcntF⟩ :=
    mf1_max conf (f^[M - 1] p0) { e with retries := M - 1 } err
      hwfl hcurl hlsl hlast
  have hMstep : f^[M] p0 = f (f^[M - 1] p0) := by
    conv_lhs => rw [show M = (M - 1) + 1 from by omega]
    rw [Function.iterate_succ_apply']
  refine ⟨hbefore, ?_, ?_⟩
  · rw [hMstep, herrF, herrl]
  · rw [hMstep, hcntF]

/-! ## C1: the occupancy-to-capacity band -/

/-- Mark operations that remove at most one entry per call. -/
def smallOp : Op → Bool
  | .markSuccess n => n ≤ 1
  | .markFailure n _ => n ≤ 1
  | .markImmediateFailure n _ => n ≤ 1
  | _ => true

/-- Reachability by valid operations whose mark calls remove at most one
entry at a time. -/
inductive ReachSmall (conf : Config) : PPB → Prop
  | init : ReachSmall conf newPPB
  | step (p : PPB) (op : Op) : ReachSmall conf p → validOp p op = true →
      smallOp op = true → ReachSmall conf (applyOp conf p op)

theorem four_dvd_len {p : PPB} (hwf : WF p) : (4 : Nat) ∣ p.buf.length := by
  obtain ⟨k, hk4, hlp⟩ := hwf.pow
  refine ⟨2 ^ (k - 2), ?_⟩
  rw [hlp]
  have h4 : (4 : Nat) = 2 ^ 2 := by norm_num
  rw [h4, ← Nat.pow_add]
  congr 1
  omega

theorem reachSmall_band (conf : Config) (p : PPB) (h : ReachSmall conf p) :
    WF p ∧ (p.buf.length = minQueueLen ∨ p.buf.length < 4 * p.count) := by
  induction h with
  | init => exact ⟨wf_newPPB, Or.inl rfl⟩
  | step p op hr hv hs ih =>
    obtain ⟨hwf, hband⟩ := ih
    have hmin := hwf.min_len
    have hdvd := four_dvd_len hwf
    refine ⟨wf_applyOp conf p op hwf hv, ?_⟩
    cases op with
    | add m =>
      show (p.add m).buf.length = minQueueLen
        ∨ (p.add m).buf.length < 4 * (p.add m).count
      cases hk : encodeOpt m.key with
      | error e =>
        rw [add_keyfail p m e hk]
        exact hband
      | ok key =>
        cases hval : encodeOpt m.val with
        | error e =>
          rw [add_valfail p m key e hk hval]
          exact hband
        | ok val =>
          obtain ⟨_, hcnt, _, _, _, hlen, _⟩ := add_ok_spec p m key val hk hval hwf
          rw [hcnt, hlen]
          by_cases hfull : p.count = p.buf.length
          · rw [if_pos hfull]
            right
            omega
          · rw [if_neg hfull]
            rcases hband with h1 | h2
            · exact Or.inl h1
            · right
              omega
    | next =>
      exact hband
    | markSuccess n =>
      have hn : n ≤ p.cur := of_decide_eq_true hv
      have hn1 : n ≤ 1 := of_decide_eq_true hs
      obtain ⟨_, hcnt, _, _, _, _, hlen⟩ := markSuccess_spec conf p n hwf hn
      show (p.markSuccess conf n).buf.length = minQueueLen
        ∨ (p.markSuccess conf n).buf.length < 4 * (p.markSuccess conf n).count
      rw [hcnt, hlen]
      by_cases hcond : minQueueLen < p.buf.length ∧ (p.count - n) * 4 = p.buf.length
      · rw [if_pos hcond]
        right
        simp only [minQueueLen] at hcond
        omega
      · rw [if_neg hcond]
        rcases hband with h1 | h2
        · exact Or.inl h1
        · simp only [minQueueLen] at hcond hmin ⊢
          have hcur_le := hwf.cur_le
          rcases Decidable.em (p.buf.length = 16) with h16 | h16
          · exact Or.inl h16
          · right
            have hne : ¬((p.count - n) * 4 = p.buf.length) := by
              intro hx
              exact hcond ⟨by omega, hx⟩
            omega
    | markFailure n err =>
      have hn : n ≤ p.cur := of_decide_eq_true hv
      have hn1 : n ≤ 1 := of_decide_eq_true hs
      obtain ⟨hkn, _, _, hcnt, _, _, _, _, hlen⟩ :=
        markFailure_spec conf p n err hwf (Nat.le_trans hn hwf.cur_le)
      show (p.markFailure conf n err).buf.length = minQueueLen
        ∨ (p.markFailure conf n err).buf.length
          < 4 * (p.markFailure conf n err).count
      rw [hcnt, hlen]
      by_cases hcond : minQueueLen < p.buf.length
          ∧ (p.count - p.mfAbandoned conf n) * 4 = p.buf.length
      · rw [if_pos hcond]
        right
        simp only [minQueueLen] at hcond
        omega
      · rw [if_neg hcond]
        rcases hband with h1 | h2
        · exact Or.inl h1
        · simp only [minQueueLen] at hcond hmin ⊢
          have hcur_le := hwf.cur_le
          rcases Decidable.em (p.buf.length = 16) with h16 | h16
          · exact Or.inl h16
          · right
            have hne : ¬((p.count - p.mfAbandoned conf n) * 4 = p.buf.length) := by
              intro hx
              exact hcond ⟨by omega, hx⟩
            omega
    | markImmediateFailure n err =>
      have hn : n ≤ p.cur := of_decide_eq_true hv
      have hn1 : n ≤ 1 := of_decide_eq_true hs
      obtain ⟨_, hcnt, _, _, _, _, hlen⟩ := markImmediateFailure_spec p n err hwf hn
      show (p.markImmediateFailure n err).buf.length = minQueueLen
        ∨ (p.markImmediateFailure n err).buf.length
          < 4 * (p.markImmediateFailure n err).count
      rw [hcnt, hlen]
      by_cases hcond : minQueueLen < p.buf.length ∧ (p.count - n) * 4 = p.buf.length
      · rw [if_pos hcond]
        right
        simp only [minQueueLen] at hcond
        omega
      · rw [if_neg hcond]
        rcases hband with h1 | h2
        · exact Or.inl h1
        · simp only [minQueueLen] at hcond hmin ⊢
          have hcur_le := hwf.cur_le
          rcases Decidable.em (p.buf.length = 16) with h16 | h16
          · exact Or.inl h16
          · right
            have hne : ¬((p.count - n) * 4 = p.buf.length) := by
              intro hx
              exact hcond ⟨by omega, hx⟩
            omega

def opsC1 : List Op :=
  (List.range 17).map (fun j => Op.add (msgW j))
    ++ List.replicate 17 Op.next ++ [Op.markSuccess 10]

/-- C1 counterexample: a valid trace (17 adds, 17 drafts, then
`markSuccess 10`, each mark within the drafted count) ends in a state whose
backing array has length 32 — above the minimum capacity — while holding
only 7 live entries, so `len(backing) ≤ 4·count` fails. -/
theorem c1_occupancy_band_counterexample :
    validTrace cfgW newPPB opsC1 = true ∧
    (run cfgW newPPB opsC1).buf.length ≠ minQueueLen ∧
    ¬((run cfgW newPPB opsC1).buf.length ≤ 4 * (run cfgW newPPB opsC1).count) := by
  refine ⟨by decide, by decide, by decide⟩

/-- C1 (amended): along any valid operation sequence, `count ≤ len(backing
array)` always holds; the upper band `len(backing array) ≤ 4·count` (except
at the minimum capacity 16) additionally holds provided every
`markSuccess`/`markFailure`/`markImmediateFailure` call is invoked with
`n ≤ 1`, i.e. removes at most one entry at a time — a batch removal can
jump past the exact-equality shrink trigger `count*4 == len(buf)` and
violate the band (see the counterexample). -/
theorem c1_occupancy_band (conf : Config) (p : PPB) :
    (Reach conf p → p.count ≤ p.buf.length) ∧
    (ReachSmall conf p →
      p.buf.length = minQueueLen ∨ p.buf.length ≤ 4 * p.count) := by
  constructor
  · intro h
    exact (reach_wf conf p h).count_le
  · intro h
    rcases (reachSmall_band conf p h).2 with h1 | h2
    · exact Or.inl h1
    · exact Or.inr (by omega)

theorem c1_occupancy_band_witness :
    newPPB.count ≤ newPPB.buf.length ∧
    (newPPB.buf.length = minQueueLen ∨ newPPB.buf.length ≤ 4 * newPPB.count) :=
  ⟨(c1_occupancy_band cfgW newPPB).1 Reach.init,
    (c1_occupancy_band cfgW newPPB).2 ReachSmall.init⟩

/-! ## C10: `markFailure` under a non-positive retry limit -/

def cfg0 : Config := { retryMax := 0, returnSuccesses := false }

def opsC10 : List Op :=
  (List.range 17).map (fun j => Op.add (msgW j))
    ++ List.replicate 17 Op.next
    ++ [Op.markSuccess 10, Op.add (msgW 100), Op.next]

/-- C10 counterexample: with `Retry.Max = 0` and a valid trace reaching a
state with `head = 10`, `count = 8` and a 32-slot backing array,
`markFailure(1, err)` abandons nothing and delivers nothing — but the
exact-equality shrink check fires (`8·4 = 32 > 16`), so the buffer is
compacted: the head moves to 0 and the backing array halves, contradicting
the claim that the only state change is the retry counters. -/
theorem c10_nonpositive_retry_counterexample :
    cfg0.retryMax ≤ 0 ∧
    validTrace cfg0 newPPB opsC10 = true ∧
    1 ≤ (run cfg0 newPPB opsC10).count ∧
    ((run cfg0 newPPB opsC10).markFailure cfg0 1 7).errors
      = (run cfg0 newPPB opsC10).errors ∧
    (run cfg0 newPPB opsC10).head = 10 ∧
    ((run cfg0 newPPB opsC10).markFailure cfg0 1 7).head = 0 ∧
    (run cfg0 newPPB opsC10).buf.length = 32 ∧
    ((run cfg0 newPPB opsC10).markFailure cfg0 1 7).buf.length = 16 := by
  refine ⟨by decide, by decide, by decide, by decide, by decide, by decide,
    by decide, by decide⟩

/-- C10 (amended): with `Producer.Retry.Max ≤ 0` and at least `n` pending
entries, `markFailure(n, err)` abandons nothing and delivers nothing to the
error channel; `count` and `cursor` are unchanged and the retry counters of
the oldest `n` entries are each incremented by one. However, if the backing
array is above the minimum capacity and `count·4` equals its length, the
shared shrink check additionally compacts the buffer (head to 0, capacity
halved) while preserving the pending entries; otherwise head, tail and the
backing length are unchanged as the claim states. -/
theorem c10_nonpositive_retry_max (conf : Config) (p : PPB) (n err : Nat)
    (hwf : WF p) (hmax : conf.retryMax ≤ 0) (hn : n ≤ p.count) :
    p.mfAbandoned conf n = 0 ∧
    (p.markFailure conf n err).errors = p.errors ∧
    (p.markFailure conf n err).successes = p.successes ∧
    (p.markFailure conf n err).count = p.count ∧
    (p.markFailure conf n err).cur = p.cur ∧
    (p.markFailure conf n err).liveSlots
      = (List.range p.count).map (fun i =>
          if i < n
          then (p.buf.getD ((p.head + i) % p.buf.length) none).map bump1
          else p.buf.getD ((p.head + i) % p.buf.length) none) ∧
    (¬(minQueueLen < p.buf.length ∧ p.count * 4 = p.buf.length) →
      (p.markFailure conf n err).buf.length = p.buf.length ∧
      (p.markFailure conf n err).head = p.head ∧
      (p.markFailure conf n err).tail = p.tail) := by
  obtain ⟨hkn, hkcount, hlive, hcnt, hcur, hsucc, herr, _, _⟩ :=
    markFailure_spec conf p n err hwf hn
  have hk0 : p.mfAbandoned conf n = 0 := by
    rw [hkcount, List.countP_eq_zero]
    intro i _
    cases hslot : p.buf.getD ((p.head + i) % p.buf.length) none with
    | none => simp [hitsMax, hslot]
    | some e =>
      simp only [hitsMax, hslot]
      intro hb
      have hb' := beq_iff_eq.mp hb
      have hpos : (0 : Int) < ((e.retries + 1 : Nat) : Int) := by
        exact_mod_cast Nat.succ_pos e.retries
      omega
  refine ⟨hk0, ?_, hsucc, ?_, ?_, ?_, ?_⟩
  · rw [herr, hk0, headSlotErrs]
    simp
  · rw [hcnt, hk0]
    omega
  · rw [hcur, hk0]
    omega
  · rw [hlive, hk0, Nat.sub_zero]
    apply List.map_congr_left
    intro i hmem
    simp only [Nat.zero_add]
  · intro hnc
    have hk2 : (mfBumpLoop conf.retryMax p.buf p.head n).2 = 0 := hk0
    have hlenB := mfb_length conf.retryMax n p.buf p.head
    have hres : p.markFailure conf n err = shrinkCheck
        { p with buf := (mfBumpLoop conf.retryMax p.buf p.head n).1 } := by
      simp only [PPB.markFailure, hk2, popFailLoop, Nat.sub_zero]
    rw [hres, shrinkCheck]
    have hcond : ¬(minQueueLen
          < (PPB.mk (mfBumpLoop conf.retryMax p.buf p.head n).1 p.head p.tail
              p.count p.cur p.successes p.errors).buf.length
        ∧ (PPB.mk (mfBumpLoop conf.retryMax p.buf p.head n).1 p.head p.tail
              p.count p.cur p.successes p.errors).count * 4
          = (PPB.mk (mfBumpLoop conf.retryMax p.buf p.head n).1 p.head p.tail
              p.count p.cur p.successes p.errors).buf.length) := by
      show ¬(minQueueLen < (mfBumpLoop conf.retryMax p.buf p.head n).1.length
        ∧ p.count * 4 = (mfBumpLoop conf.retryMax p.buf p.head n).1.length)
      rw [hlenB]
      exact hnc
    rw [if_neg hcond]
    exact ⟨hlenB, rfl, rfl⟩

def pC10W : PPB :=
  run cfg0 newPPB [Op.add (msgW 0), Op.add (msgW 1), Op.next, Op.next]

theorem c10_nonpositive_retry_max_witness :
    (cfg0.retryMax ≤ 0 ∧ 1 ≤ pC10W.count) ∧
    (pC10W.mfAbandoned cfg0 1 = 0 ∧
      (pC10W.markFailure cfg0 1 7).errors = pC10W.errors ∧
      (pC10W.markFailure cfg0 1 7).successes = pC10W.successes ∧
      (pC10W.markFailure cfg0 1 7).count = pC10W.count ∧
      (pC10W.markFailure cfg0 1 7).cur = pC10W.cur ∧
      (pC10W.markFailure cfg0 1 7).liveSlots
        = (List.range pC10W.count).map (fun i =>
            if i < 1
            then (pC10W.buf.getD ((pC10W.head + i) % pC10W.buf.length) none).map
                bump1
            else pC10W.buf.getD ((pC10W.head + i) % pC10W.buf.length) none) ∧
      (¬(minQueueLen < pC10W.buf.length
          ∧ pC10W.count * 4 = pC10W.buf.length) →
        (pC10W.markFailure cfg0 1 7).buf.length = pC10W.buf.length ∧
        (pC10W.markFailure cfg0 1 7).head = pC10W.head ∧
        (pC10W.markFailure cfg0 1 7).tail = pC10W.tail)) :=
  ⟨⟨by decide, by decide⟩,
    c10_nonpositive_retry_max cfg0 pC10W 1 7
      ⟨⟨4, by decide, by decide⟩, by decide, by decide, by decide, by decide,
        by decide⟩
      (by decide) (by decide)⟩

def p5W : PPB := run cfgW newPPB [Op.add (msgW 5), Op.next]

theorem c5_retry_abandonment_witness :
    (1 ≤ cfgW.retryMax ∧ p5W.cur = 1 ∧ p5W.liveSlots = [some (entW 5)]
      ∧ (entW 5).retries = 0) ∧
    ((∀ j, j < cfgW.retryMax.toNat →
        ((fun q => q.markFailure cfgW 1 77)^[j] p5W).errors = p5W.errors) ∧
      ((fun q => q.markFailure cfgW 1 77)^[cfgW.retryMax.toNat] p5W).errors
        = p5W.errors ++ [(some (entW 5).msg.id, 77)] ∧
      ((fun q => q.markFailure cfgW 1 77)^[cfgW.retryMax.toNat] p5W).count
        = 0) :=
  ⟨⟨by decide, by decide, by decide, by decide⟩,
    c5_retry_abandonment cfgW p5W (entW 5) 77
      ⟨⟨4, by decide, by decide⟩, by decide, by decide, by decide, by decide,
        by decide⟩
      (by decide) (by decide) (by decide) (by decide)⟩

/-! ## C4: head-anchored retries and in-order abandonment -/

/-- Retry counter of a slot (0 for a cleared slot). -/
def slotRetries : Option Entry → Nat
  | some e => e.retries
  | none => 0

/-- Older live entries always have at least as many retries as younger
ones: the retry counters are non-increasing from the head. -/
def MonoLive (p : PPB) : Prop :=
  ∀ i j, i < j → j < p.count →
    slotRetries (p.liveSlots.getD j none) ≤ slotRetries (p.liveSlots.getD i none)

theorem liveSlots_getD (p : PPB) (i : Nat) (hi : i < p.count) :
    p.liveSlots.getD i none
      = p.buf.getD ((p.head + i) % p.buf.length) none := by
  rw [PPB.liveSlots, List.getD_eq_getElem?_getD, List.getElem?_map,
    List.getElem?_range hi]
  rfl

theorem getD_map_range {α : Type} (f : Nat → α) (n i : Nat) (d : α)
    (hi : i < n) : ((List.range n).map f).getD i d = f i := by
  rw [List.getD_eq_getElem?_getD, List.getElem?_map, List.getElem?_range hi]
  rfl

theorem mono_step (conf : Config) (p : PPB) (op : Op)
    (hwf : WF p) (hv : validOp p op = true) (hm : MonoLive p) :
    MonoLive (applyOp conf p op) := by
  cases op with
  | add m =>
    show MonoLive (p.add m)
    cases hk : encodeOpt m.key with
    | error e =>
      rw [add_keyfail p m e hk]
      exact hm
    | ok key =>
      cases hval : encodeOpt m.val with
      | error e =>
        rw [add_valfail p m key e hk hval]
        exact hm
      | ok val =>
        obtain ⟨hls, hcnt, _, _, _, _, _⟩ := add_ok_spec p m key val hk hval hwf
        intro i j hij hj
        rw [hcnt] at hj
        rw [hls]
        have hllen : p.liveSlots.length = p.count := liveSlots_length p
        by_cases hjc : j < p.count
        · rw [List.getD_append _ _ _ _ (by omega),
            List.getD_append _ _ _ _ (by omega)]
          exact hm i j hij hjc
        · rw [List.getD_append_right _ _ _ _ (by omega),
            List.getD_append _ _ _ _ (by omega)]
          have hj0 : j - p.liveSlots.length = 0 := by omega
          rw [hj0]
          exact Nat.zero_le _
  | next =>
    exact hm
  | markSuccess n =>
    have hn : n ≤ p.cur := of_decide_eq_true hv
    obtain ⟨hls, hcnt, _, _, _, _, _⟩ := markSuccess_spec conf p n hwf hn
    show MonoLive (p.markSuccess conf n)
    intro i j hij hj
    rw [hcnt] at hj
    rw [hls, getD_drop, getD_drop]
    exact hm (n + i) (n + j) (by omega) (by omega)
  | markImmediateFailure n err =>
    have hn : n ≤ p.cur := of_decide_eq_true hv
    obtain ⟨hls, hcnt, _, _, _, _, _⟩ := markImmediateFailure_spec p n err hwf hn
    show MonoLive (p.markImmediateFailure n err)
    intro i j hij hj
    rw [hcnt] at hj
    rw [hls, getD_drop, getD_drop]
    exact hm (n + i) (n + j) (by omega) (by omega)
  | markFailure n err =>
    have hn : n ≤ p.cur := of_decide_eq_true hv
    obtain ⟨hkn, _, hls, hcnt, _, _, _, _, _⟩ :=
      markFailure_spec conf p n err hwf (Nat.le_trans hn hwf.cur_le)
    set k := p.mfAbandoned conf n with hkdef
    show MonoLive (p.markFailure conf n err)
    intro i j hij hj
    rw [hcnt] at hj
    rw [hls, getD_map_range _ _ _ _ (by omega), getD_map_range _ _ _ _ (by omega)]
    have hmono := hm (k + i) (k + j) (by omega) (by omega)
    rw [liveSlots_getD p (k + i) (by omega), liveSlots_getD p (k + j) (by omega)]
      at hmono
    obtain ⟨ei, hei⟩ := Option.isSome_iff_exists.mp (hwf.live (k + i) (by omega))
    obtain ⟨ej, hej⟩ := Option.isSome_iff_exists.mp (hwf.live (k + j) (by omega))
    rw [hei, hej] at hmono ⊢
    have hmono' : ej.retries ≤ ei.retries := hmono
    by_cases hjn : k + j < n
    · rw [if_pos hjn, if_pos (by omega)]
      show (bump1 ej).retries ≤ (bump1 ei).retries
      show ej.retries + 1 ≤ ei.retries + 1
      omega
    · rw [if_neg hjn]
      by_cases hin : k + i < n
      · rw [if_pos hin]
        show ej.retries ≤ (bump1 ei).retries
        show ej.retries ≤ ei.retries + 1
        omega
      · rw [if_neg hin]
        exact hmono'

theorem mono_reach (conf : Config) (p : PPB) (h : Reach conf p) : MonoLive p := by
  induction h with
  | init =>
    intro i j hij hj
    have : newPPB.count = 0 := rfl
    omega
  | step p op hr hv ih =>
    exact mono_step conf p op (reach_wf conf p hr) hv ih

/-- C4: in every reachable buffer state the retry counters are
head-anchored — an older still-pending entry never has strictly fewer
retries than a younger one — and for every valid `markFailure(n, err)` the
entries delivered as terminal failures are exactly the oldest
`abandoned`-many pending entries, in original submission order, while the
remaining pending entries (identified by message id) are exactly the rest
of the queue: abandonment never skips over an older pending entry. -/
theorem c4_retry_ordering (conf : Config) (p : PPB) (h : Reach conf p) :
    (∀ i j, i < j → j < p.count →
      slotRetries (p.liveSlots.getD j none)
        ≤ slotRetries (p.liveSlots.getD i none)) ∧
    (∀ n err, n ≤ p.cur →
      (p.markFailure conf n err).errors
        = p.errors ++ (p.liveSlots.take (p.mfAbandoned conf n)).map
            (fun s => (s.map (·.msg.id), err)) ∧
      (p.markFailure conf n err).liveSlots.map (Option.map (·.msg.id))
        = (p.liveSlots.drop (p.mfAbandoned conf n)).map
            (Option.map (·.msg.id))) := by
  have hwf := reach_wf conf p h
  refine ⟨mono_reach conf p h, ?_⟩
  intro n err hn
  obtain ⟨hkn, _, hls, hcnt, _, _, herr, _, _⟩ :=
    markFailure_spec conf p n err hwf (Nat.le_trans hn hwf.cur_le)
  set k := p.mfAbandoned conf n with hkdef
  have hkc : k ≤ p.count := by
    have := hwf.cur_le
    omega
  constructor
  · rw [herr, liveSlots_take p k hkc, List.map_map, headSlotErrs]
    rfl
  · rw [hls, liveSlots_drop p k hkc, List.map_map, List.map_map]
    apply List.map_congr_left
    intro i hmem
    show (if k + i < n
        then (p.buf.getD ((p.head + (k + i)) % p.buf.length) none).map bump1
        else p.buf.getD ((p.head + (k + i)) % p.buf.length) none).map (·.msg.id)
      = (p.buf.getD ((p.head + (k + i)) % p.buf.length) none).map (·.msg.id)
    by_cases hin : k + i < n
    · rw [if_pos hin, opt_ids_bump]
    · rw [if_neg hin]

theorem c4_retry_ordering_witness :
    ((∀ i j, i < j → j < p5W.count →
        slotRetries (p5W.liveSlots.getD j none)
          ≤ slotRetries (p5W.liveSlots.getD i none)) ∧
      (∀ n err, n ≤ p5W.cur →
        (p5W.markFailure cfgW n err).errors
          = p5W.errors ++ (p5W.liveSlots.take (p5W.mfAbandoned cfgW n)).map
              (fun s => (s.map (·.msg.id), err)) ∧
        (p5W.markFailure cfgW n err).liveSlots.map (Option.map (·.msg.id))
          = (p5W.liveSlots.drop (p5W.mfAbandoned cfgW n)).map
              (Option.map (·.msg.id)))) :=
  c4_retry_ordering cfgW p5W
    (Reach.step _ Op.next
      (Reach.step _ (Op.add (msgW 5)) Reach.init (by decide)) (by decide))

/-! ## C2: conservation of entries -/

/-- Message ids of the live entries of a slot list. -/
def idsOf (L : List (Option Entry)) : List Nat :=
  (L.filterMap id).map (·.msg.id)

theorem queueIds_eq (p : PPB) : p.queueIds = idsOf p.liveSlots := rfl

theorem idsOf_append (A B : List (Option Entry)) :
    idsOf (A ++ B) = idsOf A ++ idsOf B := by
  simp [idsOf, List.filterMap_append]

theorem filterMap_id_map_map {α β : Type} (f : α → β) (l : List (Option α)) :
    (l.map (Option.map f)).filterMap id = (l.filterMap id).map f := by
  induction l with
  | nil => rfl
  | cons a t ih => cases a <;> simp [ih]

theorem headSlotIds_take (p : PPB) (n : Nat) (hn : n ≤ p.count) :
    headSlotIds p n = (p.liveSlots.take n).map (Option.map (·.msg.id)) := by
  rw [liveSlots_take p n hn, List.map_map, headSlotIds]
  rfl

theorem chanIds_headSlotIds (p : PPB) (n : Nat) (hn : n ≤ p.count) :
    chanIds (headSlotIds p n) = idsOf (p.liveSlots.take n) := by
  rw [headSlotIds_take p n hn]
  simp only [chanIds, idsOf]
  exact filterMap_id_map_map _ _

theorem errChanIds_headSlotErrs (p : PPB) (n err : Nat) :
    errChanIds (headSlotErrs p n err) = chanIds (headSlotIds p n) := by
  simp only [errChanIds, chanIds, headSlotErrs, headSlotIds, List.filterMap_map]
  rfl

theorem markFailure_pending_ids (conf : Config) (p : PPB) (n err : Nat)
    (hwf : WF p) (hn : n ≤ p.count) :
    (p.markFailure conf n err).liveSlots.map (Option.map (·.msg.id))
      = (p.liveSlots.drop (p.mfAbandoned conf n)).map
          (Option.map (·.msg.id)) := by
  obtain ⟨hkn, _, hls, _, _, _, _, _, _⟩ := markFailure_spec conf p n err hwf hn
  set k := p.mfAbandoned conf n with hkdef
  have hkc : k ≤ p.count := by omega
  rw [hls, liveSlots_drop p k hkc, List.map_map, List.map_map]
  apply List.map_congr_left
  intro i hmem
  show (if k + i < n
      then (p.buf.getD ((p.head + (k + i)) % p.buf.length) none).map bump1
      else p.buf.getD ((p.head + (k + i)) % p.buf.length) none).map (·.msg.id)
    = (p.buf.getD ((p.head + (k + i)) % p.buf.length) none).map (·.msg.id)
  by_cases hin : k + i < n
  · rw [if_pos hin, opt_ids_bump]
  · rw [if_neg hin]

theorem idsOf_via_map (L : List (Option Entry)) :
    idsOf L = (L.map (Option.map (·.msg.id))).filterMap id :=
  (filterMap_id_map_map _ L).symm

theorem ledger_step (conf : Config) (p : PPB) (op : Op)
    (hwf : WF p) (hv : validOp p op = true)
    (hrs : conf.returnSuccesses = true) :
    ledger (applyOp conf p op) = ledger p + submittedIds [op] := by
  cases op with
  | add m =>
    show ledger (p.add m) = _
    have hsub : submittedIds [Op.add m] = {m.id} := by
      simp [submittedIds]
    rw [hsub]
    cases hk : encodeOpt m.key with
    | error e =>
      rw [add_keyfail p m e hk]
      show (chanIds p.successes : Multiset Nat)
          + (errChanIds (p.errors ++ [(some m.id, e)]) : Multiset Nat)
          + (p.queueIds : Multiset Nat) = _
      have herr : errChanIds (p.errors ++ [(some m.id, e)])
          = errChanIds p.errors ++ [m.id] := by
        simp [errChanIds, List.filterMap_append]
      rw [herr, ← Multiset.coe_add, Multiset.coe_singleton, ledger]
      abel
    | ok key =>
      cases hval : encodeOpt m.val with
      | error e =>
        rw [add_valfail p m key e hk hval]
        show (chanIds p.successes : Multiset Nat)
            + (errChanIds (p.errors ++ [(some m.id, e)]) : Multiset Nat)
            + (p.queueIds : Multiset Nat) = _
        have herr : errChanIds (p.errors ++ [(some m.id, e)])
            = errChanIds p.errors ++ [m.id] := by
          simp [errChanIds, List.filterMap_append]
        rw [herr, ← Multiset.coe_add, Multiset.coe_singleton, ledger]
        abel
      | ok val =>
        obtain ⟨hls, _, _, hsucc, herr, _, _⟩ := add_ok_spec p m key val hk hval hwf
        rw [ledger, ledger, hsucc, herr, queueIds_eq, queueIds_eq, hls,
          idsOf_append]
        have hone : idsOf [some (Entry.mk m (WMessage.mk key val) 0)] = [m.id] := rfl
        rw [hone, ← Multiset.coe_add, Multiset.coe_singleton]
        abel
  | next =>
    show ledger (p.next).2 = _
    have : ledger (p.next).2 = ledger p := rfl
    rw [this]
    simp [submittedIds]
  | markSuccess n =>
    have hn : n ≤ p.cur := of_decide_eq_true hv
    have hnc : n ≤ p.count := Nat.le_trans hn hwf.cur_le
    obtain ⟨hls, _, _, herr, hsucc, _, _⟩ := markSuccess_spec conf p n hwf hn
    show ledger (p.markSuccess conf n) = _
    rw [ledger, ledger, hsucc, herr, hrs, if_pos rfl, queueIds_eq, queueIds_eq,
      hls]
    have hS : chanIds (p.successes ++ headSlotIds p n)
        = chanIds p.successes ++ idsOf (p.liveSlots.take n) := by
      simp only [chanIds, List.filterMap_append]
      rw [← chanIds_headSlotIds p n hnc]
      rfl
    rw [hS]
    have hQ : idsOf p.liveSlots
        = idsOf (p.liveSlots.take n) ++ idsOf (p.liveSlots.drop n) := by
      rw [← idsOf_append, List.take_append_drop]
    rw [hQ]
    simp only [submittedIds]
    rw [← Multiset.coe_add, ← Multiset.coe_add]
    abel
  | markFailure n err =>
    have hn : n ≤ p.cur := of_decide_eq_true hv
    have hnc : n ≤ p.count := Nat.le_trans hn hwf.cur_le
    obtain ⟨hkn, _, hls, _, _, hsucc, herr, _, _⟩ :=
      markFailure_spec conf p n err hwf hnc
    set k := p.mfAbandoned conf n with hkdef
    have hkc : k ≤ p.count := by omega
    show ledger (p.markFailure conf n err) = _
    rw [ledger, ledger, hsucc, herr, queueIds_eq, queueIds_eq]
    have hE : errChanIds (p.errors ++ headSlotErrs p k err)
        = errChanIds p.errors ++ idsOf (p.liveSlots.take k) := by
      simp only [errChanIds, List.filterMap_append]
      rw [show (headSlotErrs p k err).filterMap (·.1)
            = errChanIds (headSlotErrs p k err) from rfl,
        errChanIds_headSlotErrs, chanIds_headSlotIds p k hkc]
    rw [hE]
    have hQ2 : idsOf (p.markFailure conf n err).liveSlots
        = idsOf (p.liveSlots.drop k) := by
      rw [idsOf_via_map, markFailure_pending_ids conf p n err hwf hnc,
        ← idsOf_via_map]
    rw [hQ2]
    have hQ : idsOf p.liveSlots
        = idsOf (p.liveSlots.take k) ++ idsOf (p.liveSlots.drop k) := by
      rw [← idsOf_append, List.take_append_drop]
    rw [hQ]
    simp only [submittedIds]
    rw [← Multiset.coe_add, ← Multiset.coe_add]
    abel
  | markImmediateFailure n err =>
    have hn : n ≤ p.cur := of_decide_eq_true hv
    have hnc : n ≤ p.count := Nat.le_trans hn hwf.cur_le
    obtain ⟨hls, _, _, hsucc, herr, _, _⟩ :=
      markImmediateFailure_spec p n err hwf hn
    show ledger (p.markImmediateFailure n err) = _
    rw [ledger, ledger, hsucc, herr, queueIds_eq, queueIds_eq, hls]
    have hE : errChanIds (p.errors ++ headSlotErrs p n err)
        = errChanIds p.errors ++ idsOf (p.liveSlots.take n) := by
      simp only [errChanIds, List.filterMap_append]
      rw [show (headSlotErrs p n err).filterMap (·.1)
            = errChanIds (headSlotErrs p n err) from rfl,
        errChanIds_headSlotErrs, chanIds_headSlotIds p n hnc]
    rw [hE]
    have hQ : idsOf p.liveSlots
        = idsOf (p.liveSlots.take n) ++ idsOf (p.liveSlots.drop n) := by
      rw [← idsOf_append, List.take_append_drop]
    rw [hQ]
    simp only [submittedIds]
    rw [← Multiset.coe_add, ← Multiset.coe_add]
    abel

/-- The occupancy-ceiling discipline: no `add` is issued on a full buffer
(`count == maxBuffer`), mirroring the `full()` gate of the async producer. -/
def respectsCeiling (conf : Config) : PPB → List Op → Bool
  | _, [] => true
  | p, op :: ops =>
    (match op with
      | .add _ => !p.full
      | _ => true)
      && respectsCeiling conf (applyOp conf p op) ops

theorem ledger_run (conf : Config) (hrs : conf.returnSuccesses = true) :
    ∀ (ops : List Op) (p : PPB), WF p → validTrace conf p ops = true →
      ledger (run conf p ops) = ledger p + submittedIds ops := by
  intro ops
  induction ops with
  | nil =>
    intro p _ _
    simp [run, submittedIds]
  | cons op ops ih =>
    intro p hwf hv
    rw [validTrace, Bool.and_eq_true] at hv
    obtain ⟨h1, h2⟩ := hv
    rw [run, ih (applyOp conf p op) (wf_applyOp conf p op hwf h1) h2,
      ledger_step conf p op hwf h1 hrs]
    cases op <;> simp only [submittedIds, add_zero] <;> abel

theorem ledger_newPPB : ledger newPPB = 0 := rfl

/-- C2: for every valid sequence of operations from a fresh buffer that
respects the occupancy ceiling (no `add` on a full buffer), with success
reporting enabled, no entry is lost or duplicated: the multiset of submitted
message ids equals the multiset of ids delivered to the success channel, plus
those delivered to the error channel, plus those still pending in the
buffer. -/
theorem c2_conservation (conf : Config) (ops : List Op)
    (hrs : conf.returnSuccesses = true)
    (hv : validTrace conf newPPB ops = true)
    (hceil : respectsCeiling conf newPPB ops = true) :
    ledger (run conf newPPB ops) = submittedIds ops := by
  rw [ledger_run conf hrs ops newPPB wf_newPPB hv, ledger_newPPB, zero_add]

def opsC2 : List Op :=
  [Op.add (msgW 1), Op.add (msgW 2), Op.add (msgW 3),
   Op.next, Op.next,
   Op.markSuccess 1, Op.markFailure 1 7]

/-- Witness for C2 at a concrete 7-operation trace. -/
theorem c2_conservation_witness :
    ledger (run cfgW newPPB opsC2) = submittedIds opsC2 :=
  c2_conservation cfgW opsC2 rfl (by decide) (by decide)

/-! ## Wire codec: packet encoder/decoder, Message, MessageSet, ProduceRequest

`ProduceRequest.encode`/`decode` are translated from the source. The
packet encoder/decoder, `lengthField` push/pop framing, `Message` and
`MessageSet` are not part of the source tree and are modelled from the
spec (§6 collaborator contracts and the wire-format glossary). -/

/-- Wire-codec error conditions. Modelled from the spec: the codec surfaces
insufficient data, invalid lengths and framing-stack misuse as errors. -/
inductive WErr where
  | insufficientData
  | invalidLength
  | invalidStack
  | invalidStringLength
deriving DecidableEq, Repr

/-- Big-endian bytes of a 16-bit integer. Modelled from the spec: encode
primitives write fixed-width big-endian integers. -/
def int16Bytes (v : Int) : List Nat :=
  let n := (v % 65536).toNat
  [n / 256, n % 256]

/-- Big-endian bytes of a 32-bit integer. Modelled from the spec. -/
def int32Bytes (v : Int) : List Nat :=
  let n := (v % 4294967296).toNat
  [n / 16777216 % 256, n / 65536 % 256, n / 256 % 256, n % 256]

/-- Signed 16-bit value of two big-endian bytes. Modelled from the spec. -/
def sint16 (a b : Nat) : Int :=
  let n := (a % 256) * 256 + b % 256
  if n < 32768 then (n : Int) else (n : Int) - 65536

/-- Signed 32-bit value of four big-endian bytes. Modelled from the spec. -/
def sint32 (a b c d : Nat) : Int :=
  let n := (a % 256) * 16777216 + (b % 256) * 65536 + (c % 256) * 256 + d % 256
  if n < 2147483648 then (n : Int) else (n : Int) - 4294967296

/-- Modelled from the spec: the packet encoder is a growable byte sink with
a stack of pushed length-field offsets for the push/pop framing idiom. -/
structure PEnc where
  out : List Nat
  stack : List Nat
deriving DecidableEq, Repr

def PEnc.putInt16 (pe : PEnc) (v : Int) : PEnc :=
  { pe with out := pe.out ++ int16Bytes v }

def PEnc.putInt32 (pe : PEnc) (v : Int) : PEnc :=
  { pe with out := pe.out ++ int32Bytes v }

def PEnc.putRawBytes (pe : PEnc) (b : List Nat) : PEnc :=
  { pe with out := pe.out ++ b }

/-- Modelled from the spec: array lengths are written as a 32-bit count. -/
def PEnc.putArrayLength (pe : PEnc) (n : Nat) : Except WErr PEnc :=
  if n > 2147483647 then .error .invalidLength
  else .ok (pe.putInt32 (n : Int))

/-- Modelled from the spec: strings are 16-bit-length-prefixed byte runs. -/
def PEnc.putString (pe : PEnc) (s : List Nat) : Except WErr PEnc :=
  if s.length > 32767 then .error .invalidStringLength
  else .ok ((pe.putInt16 (s.length : Int)).putRawBytes s)

/-- Modelled from the spec: byte arrays are 32-bit-length-prefixed, with
length −1 standing for a null array. -/
def PEnc.putBytes (pe : PEnc) (b : Option (List Nat)) : Except WErr PEnc :=
  match b with
  | none => .ok (pe.putInt32 (-1))
  | some bs =>
      if bs.length > 2147483647 then .error .invalidLength
      else .ok ((pe.putInt32 (bs.length : Int)).putRawBytes bs)

/-- Modelled from the spec: `push` reserves a 4-byte length field at the
current offset and records that offset. -/
def PEnc.push (pe : PEnc) : PEnc :=
  { out := pe.out ++ [0, 0, 0, 0], stack := pe.out.length :: pe.stack }

def patchAt (l : List Nat) (off : Nat) (bs : List Nat) : List Nat :=
  l.take off ++ bs ++ l.drop (off + bs.length)

/-- Modelled from the spec: `pop` patches the most recently reserved length
field with the number of bytes written since the push. -/
def PEnc.pop (pe : PEnc) : Except WErr PEnc :=
  match pe.stack with
  | [] => .error .invalidStack
  | off :: rest =>
      .ok { out := patchAt pe.out off (int32Bytes ((pe.out.length - (off + 4) : Nat) : Int))
            stack := rest }

/-- Modelled from the spec: the packet decoder is a byte source with
explicit remaining-length tracking. -/
structure PDec where
  data : List Nat
deriving DecidableEq, Repr

def PDec.getInt16 (pd : PDec) : Except WErr (Int × PDec) :=
  match pd.data with
  | a :: b :: rest => .ok (sint16 a b, ⟨rest⟩)
  | _ => .error .insufficientData

def PDec.getInt32 (pd : PDec) : Except WErr (Int × PDec) :=
  match pd.data with
  | a :: b :: c :: d :: rest => .ok (sint32 a b c d, ⟨rest⟩)
  | _ => .error .insufficientData

/-- Modelled from the spec: array lengths are read as a 32-bit count and a
negative count is malformed. -/
def PDec.getArrayLength (pd : PDec) : Except WErr (Nat × PDec) :=
  match pd.getInt32 with
  | .error e => .error e
  | .ok (v, pd1) => if v < 0 then .error .invalidLength else .ok (v.toNat, pd1)

/-- Modelled from the spec: a string is a 16-bit length then that many
bytes. -/
def PDec.getString (pd : PDec) : Except WErr (List Nat × PDec) :=
  match pd.getInt16 with
  | .error e => .error e
  | .ok (n, pd1) =>
      if n < 0 then .error .invalidStringLength
      else if pd1.data.length < n.toNat then .error .insufficientData
      else .ok (pd1.data.take n.toNat, ⟨pd1.data.drop n.toNat⟩)

/-- Modelled from the spec: a byte array is a 32-bit length then that many
bytes; length −1 is a null array. -/
def PDec.getBytes (pd : PDec) : Except WErr (Option (List Nat) × PDec) :=
  match pd.getInt32 with
  | .error e => .error e
  | .ok (n, pd1) =>
      if n = -1 then .ok (none, pd1)
      else if n < 0 then .error .invalidLength
      else if pd1.data.length < n.toNat then .error .insufficientData
      else .ok (some (pd1.data.take n.toNat), ⟨pd1.data.drop n.toNat⟩)

/-- Modelled from the spec: a bounded sub-view of the next `n` bytes. -/
def PDec.getSubset (pd : PDec) (n : Int) : Except WErr (PDec × PDec) :=
  if n < 0 then .error .invalidLength
  else if pd.data.length < n.toNat then .error .insufficientData
  else .ok (⟨pd.data.take n.toNat⟩, ⟨pd.data.drop n.toNat⟩)

/-- Modelled from the spec: the on-wire record — a compression codec tag,
an encoded key and an encoded value (the nested compressed sub-batch
wrapper is out of scope here). -/
structure Message where
  codec : Nat
  key : Option (List Nat)
  value : Option (List Nat)
deriving DecidableEq, Repr

/-- Modelled from the spec: a record is its codec tag byte followed by the
length-prefixed key and value. -/
def Message.encode (m : Message) (pe : PEnc) : Except WErr PEnc :=
  match (pe.putRawBytes [m.codec % 256]).putBytes m.key with
  | .error e => .error e
  | .ok pe1 => pe1.putBytes m.value

def Message.decode (pd : PDec) : Except WErr (Message × PDec) :=
  match pd.data with
  | [] => .error .insufficientData
  | c :: rest =>
      match PDec.getBytes ⟨rest⟩ with
      | .error e => .error e
      | .ok (key, pd1) =>
          match pd1.getBytes with
          | .error e => .error e
          | .ok (value, pd2) =>
              .ok ({ codec := c, key := key, value := value }, pd2)

/-- Modelled from the spec: an ordered, length-framed sequence of wire
records. -/
structure MessageSet where
  Messages : List Message
deriving DecidableEq, Repr

def encodeBlocks : List Message → PEnc → Except WErr PEnc
  | [], pe => .ok pe
  | m :: ms, pe =>
      match m.encode pe.push with
      | .error e => .error e
      | .ok pe1 =>
          match pe1.pop with
          | .error e => .error e
          | .ok pe2 => encodeBlocks ms pe2

/-- Modelled from the spec: each record is framed by a pushed length field,
the record bytes, then a pop patching the frame length. -/
def MessageSet.encode (s : MessageSet) (pe : PEnc) : Except WErr PEnc :=
  encodeBlocks s.Messages pe

def decodeBlocks : Nat → List Nat → Except WErr (List Message)
  | _, [] => .ok []
  | 0, _ :: _ => .error .insufficientData
  | fuel + 1, a :: l =>
      match PDec.getInt32 ⟨a :: l⟩ with
      | .error e => .error e
      | .ok (n, pd1) =>
          match pd1.getSubset n with
          | .error e => .error e
          | .ok (sub, rest) =>
              match Message.decode sub with
              | .error e => .error e
              | .ok (m, _) =>
                  match decodeBlocks fuel rest.data with
                  | .error e => .error e
                  | .ok ms => .ok (m :: ms)

/-- Modelled from the spec: records are decoded from the bounded view until
it is exhausted. -/
def MessageSet.decode (pd : PDec) : Except WErr MessageSet :=
  match decodeBlocks pd.data.length pd.data with
  | .error e => .error e
  | .ok ms => .ok ⟨ms⟩

/-- `ProduceRequest`, translated from the source: required-acks, timeout,
protocol version and the topic → partition → MessageSet mapping. Go's
`map[string]map[int32]*MessageSet` is embedded as a two-level association
list (a Go map has no duplicate keys; iteration order is fixed by the
list). -/
structure ProduceRequest where
  RequiredAcks : Int
  Timeout : Int
  Version : Int
  msgSets : List (List Nat × List (Int × MessageSet))
deriving DecidableEq, Repr

def encodeParts : List (Int × MessageSet) → PEnc → Except WErr PEnc
  | [], pe => .ok pe
  | (id, ms) :: rest, pe =>
      match ms.encode (pe.putInt32 id).push with
      | .error e => .error e
      | .ok pe1 =>
          match pe1.pop with
          | .error e => .error e
          | .ok pe2 => encodeParts rest pe2

def encodeTopics : List (List Nat × List (Int × MessageSet)) → PEnc → Except WErr PEnc
  | [], pe => .ok pe
  | (topic, parts) :: rest, pe =>
      match pe.putString topic with
      | .error e => .error e
      | .ok pe1 =>
          match pe1.putArrayLength parts.length with
          | .error e => .error e
          | .ok pe2 =>
              match encodeParts parts pe2 with
              | .error e => .error e
              | .ok pe3 => encodeTopics rest pe3

/-- `ProduceRequest.encode`, translated from the source: write required-acks
and timeout, the topic count, then per topic its name and partition count,
and per partition the id, a pushed length field, the MessageSet and the
pop. The prometheus batch-size/compression-ratio/record-count observations
are pure metric side effects and are omitted. -/
def ProduceRequest.encode (r : ProduceRequest) (pe : PEnc) : Except WErr PEnc :=
  let pe1 := (pe.putInt16 r.RequiredAcks).putInt32 r.Timeout
  match pe1.putArrayLength r.msgSets.length with
  | .error e => .error e
  | .ok pe2 => encodeTopics r.msgSets pe2

/-- Go map insertion on the association-list embedding: replace the value
under an existing key, else append the binding. -/
def assocSet {α β : Type} [DecidableEq α] (m : List (α × β)) (k : α) (v : β) :
    List (α × β) :=
  match m with
  | [] => [(k, v)]
  | (k0, v0) :: rest =>
      if k0 = k then (k, v) :: rest else (k0, v0) :: assocSet rest k v

def decodeParts :
    Nat → List (Int × MessageSet) → PDec →
      Except WErr (List (Int × MessageSet) × PDec)
  | 0, acc, pd => .ok (acc, pd)
  | j + 1, acc, pd =>
      match pd.getInt32 with
      | .error e => .error e
      | .ok (partition, pd1) =>
          match pd1.getInt32 with
          | .error e => .error e
          | .ok (messageSetSize, pd2) =>
              match pd2.getSubset messageSetSize with
              | .error e => .error e
              | .ok (sub, pd3) =>
                  match MessageSet.decode sub with
                  | .error e => .error e
                  | .ok msgSet => decodeParts j (assocSet acc partition msgSet) pd3

def decodeTopics :
    Nat → List (List Nat × List (Int × MessageSet)) → PDec →
      Except WErr (List (List Nat × List (Int × MessageSet)) × PDec)
  | 0, acc, pd => .ok (acc, pd)
  | i + 1, acc, pd =>
      match pd.getString with
      | .error e => .error e
      | .ok (topic, pd1) =>
          match pd1.getArrayLength with
          | .error e => .error e
          | .ok (partitionCount, pd2) =>
              match decodeParts partitionCount [] pd2 with
              | .error e => .error e
              | .ok (parts, pd3) => decodeTopics i (assocSet acc topic parts) pd3

/-- `ProduceRequest.decode`, translated from the source: read required-acks,
timeout and the topic count; a zero topic count returns at once; otherwise
loop over topics (name, partition count) and partitions (id, message-set
size, bounded sub-view decoded as a MessageSet), building the maps. -/
def ProduceRequest.decode (pd : PDec) (version : Int) :
    Except WErr (ProduceRequest × PDec) :=
  match pd.getInt16 with
  | .error e => .error e
  | .ok (requiredAcks, pd1) =>
      match pd1.getInt32 with
      | .error e => .error e
      | .ok (timeout, pd2) =>
          match pd2.getArrayLength with
          | .error e => .error e
          | .ok (topicCount, pd3) =>
              if topicCount = 0 then
                .ok ({ RequiredAcks := requiredAcks, Timeout := timeout
                       Version := version, msgSets := [] }, pd3)
              else
                match decodeTopics topicCount [] pd3 with
                | .error e => .error e
                | .ok (sets, pd4) =>
                    .ok ({ RequiredAcks := requiredAcks, Timeout := timeout
                           Version := version, msgSets := sets }, pd4)

/-! ### Round-trip lemmas for the wire primitives -/

theorem int16Bytes_length (v : Int) : (int16Bytes v).length = 2 := rfl

theorem int32Bytes_length (v : Int) : (int32Bytes v).length = 4 := rfl

theorem sint16_rt (v : Int) (h1 : -32768 ≤ v) (h2 : v < 32768) :
    sint16 ((v % 65536).toNat / 256) ((v % 65536).toNat % 256) = v := by
  simp only [sint16]
  split <;> omega

theorem getInt16_rt (v : Int) (rest : List Nat)
    (h1 : -32768 ≤ v) (h2 : v < 32768) :
    PDec.getInt16 ⟨int16Bytes v ++ rest⟩ = .ok (v, ⟨rest⟩) := by
  simp only [int16Bytes, PDec.getInt16, List.cons_append, List.nil_append]
  rw [sint16_rt v h1 h2]

theorem sint32_rt (v : Int) (h1 : -2147483648 ≤ v) (h2 : v < 2147483648) :
    sint32 ((v % 4294967296).toNat / 16777216 % 256)
      ((v % 4294967296).toNat / 65536 % 256)
      ((v % 4294967296).toNat / 256 % 256) ((v % 4294967296).toNat % 256) = v := by
  simp only [sint32]
  split <;> omega

theorem getInt32_rt (v : Int) (rest : List Nat)
    (h1 : -2147483648 ≤ v) (h2 : v < 2147483648) :
    PDec.getInt32 ⟨int32Bytes v ++ rest⟩ = .ok (v, ⟨rest⟩) := by
  simp only [int32Bytes, PDec.getInt32, List.cons_append, List.nil_append]
  rw [sint32_rt v h1 h2]

theorem getArrayLength_rt (n : Nat) (rest : List Nat) (h : n ≤ 2147483647) :
    PDec.getArrayLength ⟨int32Bytes (n : Int) ++ rest⟩ = .ok (n, ⟨rest⟩) := by
  simp only [PDec.getArrayLength, getInt32_rt (n : Int) rest (by omega) (by omega)]
  rw [if_neg (by omega)]
  simp

theorem getString_rt (s rest : List Nat) (h : s.length ≤ 32767) :
    PDec.getString ⟨int16Bytes (s.length : Int) ++ (s ++ rest)⟩
      = .ok (s, ⟨rest⟩) := by
  simp only [PDec.getString,
    getInt16_rt (s.length : Int) (s ++ rest) (by omega) (by omega)]
  rw [if_neg (by omega)]
  have htn : ((s.length : Int)).toNat = s.length := Int.toNat_natCast _
  rw [htn]
  rw [if_neg (by simp)]
  rw [List.take_left, List.drop_left]

theorem getBytes_rt_none (rest : List Nat) :
    PDec.getBytes ⟨int32Bytes (-1) ++ rest⟩ = .ok (none, ⟨rest⟩) := by
  simp only [PDec.getBytes, getInt32_rt (-1) rest (by omega) (by omega)]
  simp

theorem getBytes_rt_some (bs rest : List Nat) (h : bs.length ≤ 2147483647) :
    PDec.getBytes ⟨int32Bytes (bs.length : Int) ++ (bs ++ rest)⟩
      = .ok (some bs, ⟨rest⟩) := by
  simp only [PDec.getBytes,
    getInt32_rt (bs.length : Int) (bs ++ rest) (by omega) (by omega)]
  rw [if_neg (by omega), if_neg (by omega)]
  have htn : ((bs.length : Int)).toNat = bs.length := Int.toNat_natCast _
  rw [htn]
  rw [if_neg (by simp)]
  rw [List.take_left, List.drop_left]

theorem getSubset_rt (pre rest : List Nat) :
    PDec.getSubset ⟨pre ++ rest⟩ (pre.length : Int) = .ok (⟨pre⟩, ⟨rest⟩) := by
  rw [PDec.getSubset, if_neg (by omega)]
  have htn : ((pre.length : Int)).toNat = pre.length := Int.toNat_natCast _
  rw [htn]
  rw [if_neg (by simp)]
  rw [List.take_left, List.drop_left]

/-! ### Byte-image characterizations of the encoders -/

def optBytes : Option (List Nat) → List Nat
  | none => int32Bytes (-1)
  | some bs => int32Bytes (bs.length : Int) ++ bs

def msgBytes (m : Message) : List Nat :=
  [m.codec % 256] ++ optBytes m.key ++ optBytes m.value

def setBytes : List Message → List Nat
  | [] => []
  | m :: ms => int32Bytes ((msgBytes m).length : Int) ++ msgBytes m ++ setBytes ms

def partsBytes : List (Int × MessageSet) → List Nat
  | [] => []
  | (id, ms) :: rest =>
      int32Bytes id ++ int32Bytes ((setBytes ms.Messages).length : Int)
        ++ setBytes ms.Messages ++ partsBytes rest

def topicsBytes : List (List Nat × List (Int × MessageSet)) → List Nat
  | [] => []
  | (t, parts) :: rest =>
      int16Bytes (t.length : Int) ++ t ++ int32Bytes (parts.length : Int)
        ++ partsBytes parts ++ topicsBytes rest

def reqBytes (r : ProduceRequest) : List Nat :=
  int16Bytes r.RequiredAcks ++ int32Bytes r.Timeout
    ++ int32Bytes (r.msgSets.length : Int) ++ topicsBytes r.msgSets

/-- In-range side conditions for a record: a one-byte codec tag and key and
value payloads that keep every enclosing length field within 32 bits. -/
abbrev validMsg (m : Message) : Prop :=
  m.codec < 256 ∧ (m.key.getD []).length ≤ 1073741819
    ∧ (m.value.getD []).length ≤ 1073741819

abbrev validPart (p : Int × MessageSet) : Prop :=
  -2147483648 ≤ p.1 ∧ p.1 < 2147483648
    ∧ (setBytes p.2.Messages).length ≤ 2147483647
    ∧ ∀ m ∈ p.2.Messages, validMsg m

abbrev validTopic (t : List Nat × List (Int × MessageSet)) : Prop :=
  t.1.length ≤ 32767 ∧ t.2.length ≤ 2147483647
    ∧ (t.2.map (·.1)).Nodup ∧ ∀ p ∈ t.2, validPart p

abbrev validReq (r : ProduceRequest) : Prop :=
  -32768 ≤ r.RequiredAcks ∧ r.RequiredAcks < 32768
    ∧ -2147483648 ≤ r.Timeout ∧ r.Timeout < 2147483648
    ∧ r.msgSets.length ≤ 2147483647
    ∧ (r.msgSets.map (·.1)).Nodup
    ∧ ∀ t ∈ r.msgSets, validTopic t

theorem optBytes_length (b : Option (List Nat)) :
    (optBytes b).length = 4 + (b.getD []).length := by
  cases b <;> simp [optBytes, int32Bytes_length]

theorem msgBytes_length (m : Message) :
    (msgBytes m).length
      = 9 + (m.key.getD []).length + (m.value.getD []).length := by
  simp [msgBytes, optBytes_length]
  omega

theorem putBytes_spec (pe : PEnc) (b : Option (List Nat))
    (h : (b.getD []).length ≤ 2147483647) :
    pe.putBytes b = .ok ⟨pe.out ++ optBytes b, pe.stack⟩ := by
  cases b with
  | none => rfl
  | some bs =>
      have hb : bs.length ≤ 2147483647 := h
      simp only [PEnc.putBytes]
      rw [if_neg (by omega)]
      simp [PEnc.putInt32, PEnc.putRawBytes, optBytes]

theorem putString_spec (pe : PEnc) (s : List Nat) (h : s.length ≤ 32767) :
    pe.putString s = .ok ⟨pe.out ++ int16Bytes (s.length : Int) ++ s, pe.stack⟩ := by
  simp only [PEnc.putString]
  rw [if_neg (by omega)]
  rfl

theorem putArrayLength_spec (pe : PEnc) (n : Nat) (h : n ≤ 2147483647) :
    pe.putArrayLength n = .ok ⟨pe.out ++ int32Bytes (n : Int), pe.stack⟩ := by
  simp only [PEnc.putArrayLength]
  rw [if_neg (by omega)]
  rfl

theorem pop_framed (pe : PEnc) (payload : List Nat) :
    PEnc.pop ⟨pe.push.out ++ payload, pe.push.stack⟩
      = .ok ⟨pe.out ++ int32Bytes (payload.length : Int) ++ payload, pe.stack⟩ := by
  have ht : ((pe.out ++ [0, 0, 0, 0]) ++ payload).take pe.out.length = pe.out := by
    rw [List.append_assoc, List.take_left]
  have hd : ((pe.out ++ [0, 0, 0, 0]) ++ payload).drop (pe.out.length + 4)
      = payload := by
    have h4 : pe.out.length + 4 = (pe.out ++ [0, 0, 0, 0]).length := by simp
    rw [h4, List.drop_left]
  have hlen : ((pe.out ++ [0, 0, 0, 0]) ++ payload).length
      - (pe.out.length + 4) = payload.length := by
    simp [List.length_append]
    omega
  simp only [PEnc.push, PEnc.pop, hlen]
  rw [patchAt, int32Bytes_length, ht, hd]

theorem msg_encode_spec (m : Message) (pe : PEnc) (h : validMsg m) :
    m.encode pe = .ok ⟨pe.out ++ msgBytes m, pe.stack⟩ := by
  obtain ⟨hc, hk, hv⟩ := h
  have e1 := putBytes_spec (pe.putRawBytes [m.codec % 256]) m.key (by omega)
  simp only [Message.encode, e1]
  rw [putBytes_spec _ m.value (by omega)]
  simp [msgBytes, PEnc.putRawBytes, List.append_assoc]

theorem getBytes_rt (b : Option (List Nat)) (rest : List Nat)
    (h : (b.getD []).length ≤ 2147483647) :
    PDec.getBytes ⟨optBytes b ++ rest⟩ = .ok (b, ⟨rest⟩) := by
  cases b with
  | none => exact getBytes_rt_none rest
  | some bs =>
      rw [optBytes, List.append_assoc]
      exact getBytes_rt_some bs rest h

theorem msg_decode_spec (m : Message) (rest : List Nat) (h : validMsg m) :
    Message.decode ⟨msgBytes m ++ rest⟩ = .ok (m, ⟨rest⟩) := by
  obtain ⟨hc, hk, hv⟩ := h
  have e1 := getBytes_rt m.key (optBytes m.value ++ rest) (by omega)
  have e2 := getBytes_rt m.value rest (by omega)
  simp only [msgBytes, List.append_assoc, List.cons_append, List.nil_append,
    Message.decode, e1, e2]
  rw [Nat.mod_eq_of_lt hc]

theorem encodeBlocks_spec (ms : List Message) :
    ∀ pe : PEnc, (∀ m ∈ ms, validMsg m) →
      encodeBlocks ms pe = .ok ⟨pe.out ++ setBytes ms, pe.stack⟩ := by
  induction ms with
  | nil =>
    intro pe _
    simp [encodeBlocks, setBytes]
  | cons m ms ih =>
    intro pe hall
    have hm : validMsg m := hall m (by simp)
    have e1 := msg_encode_spec m pe.push hm
    simp only [encodeBlocks, e1, pop_framed pe (msgBytes m)]
    rw [ih _ (fun x hx => hall x (by simp [hx]))]
    simp [setBytes, List.append_assoc]

theorem msgSet_encode_spec (s : MessageSet) (pe : PEnc)
    (h : ∀ m ∈ s.Messages, validMsg m) :
    s.encode pe = .ok ⟨pe.out ++ setBytes s.Messages, pe.stack⟩ :=
  encodeBlocks_spec s.Messages pe h

theorem decodeBlocks_step (fuel : Nat) (v : Int) (rest : List Nat)
    (hv : 0 ≤ v) (hv2 : v < 2147483648) (hlen : v.toNat ≤ rest.length) :
    decodeBlocks (fuel + 1) (int32Bytes v ++ rest)
      = (match Message.decode ⟨rest.take v.toNat⟩ with
         | .error e => .error e
         | .ok (m, _) =>
             match decodeBlocks fuel (rest.drop v.toNat) with
             | .error e => .error e
             | .ok ms => .ok (m :: ms)) := by
  have hrt := getInt32_rt v rest (by omega) (by omega)
  simp only [int32Bytes, List.cons_append, List.nil_append] at hrt ⊢
  simp only [decodeBlocks, hrt, PDec.getSubset]
  rw [if_neg (by omega), if_neg (by omega)]

theorem decodeBlocks_spec (ms : List Message) :
    ∀ fuel : Nat, (∀ m ∈ ms, validMsg m) → (setBytes ms).length ≤ fuel →
      decodeBlocks fuel (setBytes ms) = .ok ms := by
  induction ms with
  | nil =>
    intro fuel _ _
    rw [setBytes]
    cases fuel <;> rfl
  | cons m ms ih =>
    intro fuel hall hfuel
    have hm : validMsg m := hall m (by simp)
    have hlen : (setBytes (m :: ms)).length
        = 4 + (msgBytes m).length + (setBytes ms).length := by
      simp [setBytes, int32Bytes_length]
      omega
    have hmb : 1 ≤ (msgBytes m).length := by
      rw [msgBytes_length]
      omega
    cases fuel with
    | zero => omega
    | succ f =>
      have hmlt : ((msgBytes m).length : Int) < 2147483648 := by
        obtain ⟨hc, hk, hv⟩ := hm
        rw [msgBytes_length]
        omega
      rw [setBytes, List.append_assoc,
        decodeBlocks_step f ((msgBytes m).length : Int)
          (msgBytes m ++ setBytes ms) (by omega) hmlt
          (by rw [Int.toNat_natCast]; simp)]
      rw [Int.toNat_natCast, List.take_left, List.drop_left]
      have hdec := msg_decode_spec m [] hm
      rw [List.append_nil] at hdec
      rw [hdec, ih f (fun x hx => hall x (by simp [hx])) (by omega)]

theorem msgSet_decode_spec (s : MessageSet)
    (h : ∀ m ∈ s.Messages, validMsg m) :
    MessageSet.decode ⟨setBytes s.Messages⟩ = .ok s := by
  simp only [MessageSet.decode,
    decodeBlocks_spec s.Messages (setBytes s.Messages).length h (le_refl _)]

theorem encodeParts_spec (parts : List (Int × MessageSet)) :
    ∀ pe : PEnc, (∀ p ∈ parts, validPart p) →
      encodeParts parts pe = .ok ⟨pe.out ++ partsBytes parts, pe.stack⟩ := by
  induction parts with
  | nil =>
    intro pe _
    simp [encodeParts, partsBytes]
  | cons p rest ih =>
    obtain ⟨id, ms⟩ := p
    intro pe hall
    have hp : validPart (id, ms) := hall _ (by simp)
    have e1 := msgSet_encode_spec ms (pe.putInt32 id).push hp.2.2.2
    simp only [encodeParts, e1, pop_framed (pe.putInt32 id) (setBytes ms.Messages)]
    rw [ih _ (fun x hx => hall x (by simp [hx]))]
    simp [partsBytes, PEnc.putInt32, List.append_assoc]

theorem encodeTopics_spec (topics : List (List Nat × List (Int × MessageSet))) :
    ∀ pe : PEnc, (∀ t ∈ topics, validTopic t) →
      encodeTopics topics pe = .ok ⟨pe.out ++ topicsBytes topics, pe.stack⟩ := by
  induction topics with
  | nil =>
    intro pe _
    simp [encodeTopics, topicsBytes]
  | cons t rest ih =>
    obtain ⟨topic, parts⟩ := t
    intro pe hall
    have ht : validTopic (topic, parts) := hall _ (by simp)
    have e1 := putString_spec pe topic ht.1
    have e2 := putArrayLength_spec
      (⟨pe.out ++ int16Bytes (topic.length : Int) ++ topic, pe.stack⟩ : PEnc)
      parts.length ht.2.1
    have e3 := encodeParts_spec parts
      (⟨(pe.out ++ int16Bytes (topic.length : Int) ++ topic)
          ++ int32Bytes (parts.length : Int), pe.stack⟩ : PEnc) ht.2.2.2
    simp only [encodeTopics, e1, e2, e3]
    rw [ih _ (fun x hx => hall x (by simp [hx]))]
    simp [topicsBytes, List.append_assoc]

theorem req_encode_spec (r : ProduceRequest) (pe : PEnc)
    (hv : validReq r) :
    r.encode pe = .ok ⟨pe.out ++ reqBytes r, pe.stack⟩ := by
  obtain ⟨h1, h2, h3, h4, h5, h6, h7⟩ := hv
  have e1 := putArrayLength_spec ((pe.putInt16 r.RequiredAcks).putInt32 r.Timeout)
    r.msgSets.length h5
  simp only [ProduceRequest.encode, e1]
  rw [encodeTopics_spec r.msgSets _ h7]
  simp [PEnc.putInt16, PEnc.putInt32, reqBytes, List.append_assoc]

theorem assocSet_append {α β : Type} [DecidableEq α] :
    ∀ (acc : List (α × β)) (k : α) (v : β),
      (∀ p ∈ acc, p.1 ≠ k) → assocSet acc k v = acc ++ [(k, v)] := by
  intro acc
  induction acc with
  | nil => intro k v _; rfl
  | cons q rest ih =>
    obtain ⟨k0, v0⟩ := q
    intro k v h
    have hne : k0 ≠ k := h (k0, v0) (by simp)
    rw [assocSet]
    rw [if_neg hne, ih k v (fun p hp => h p (by simp [hp]))]
    simp

theorem decodeParts_spec (parts : List (Int × MessageSet)) :
    ∀ (acc : List (Int × MessageSet)) (rest : List Nat),
      (∀ p ∈ parts, validPart p) → (parts.map (·.1)).Nodup →
      (∀ q ∈ acc, ∀ p ∈ parts, q.1 ≠ p.1) →
      decodeParts parts.length acc ⟨partsBytes parts ++ rest⟩
        = .ok (acc ++ parts, ⟨rest⟩) := by
  induction parts with
  | nil =>
    intro acc rest _ _ _
    simp [decodeParts, partsBytes]
  | cons p parts ih =>
    obtain ⟨id, ms⟩ := p
    intro acc rest hall hnd hdisj
    have hp : validPart (id, ms) := hall _ (by simp)
    have hnd2 : (id :: parts.map (·.1)).Nodup := hnd
    have hid : id ∉ parts.map (·.1) := (List.nodup_cons.mp hnd2).1
    have hndtail : (parts.map (·.1)).Nodup := (List.nodup_cons.mp hnd2).2
    have hsb : (setBytes ms.Messages).length ≤ 2147483647 := hp.2.2.1
    have hL1 : (-2147483648 : Int) ≤ ((setBytes ms.Messages).length : Int) := by
      omega
    have hL2 : ((setBytes ms.Messages).length : Int) < 2147483648 := by omega
    have e1 : ∀ R, PDec.getInt32 ⟨int32Bytes id ++ R⟩ = .ok (id, ⟨R⟩) :=
      fun R => getInt32_rt id R hp.1 hp.2.1
    have e2 : ∀ R,
        PDec.getInt32 ⟨int32Bytes ((setBytes ms.Messages).length : Int) ++ R⟩
          = .ok (((setBytes ms.Messages).length : Int), ⟨R⟩) :=
      fun R => getInt32_rt _ R hL1 hL2
    have e3 : ∀ R, PDec.getSubset ⟨setBytes ms.Messages ++ R⟩
          ((setBytes ms.Messages).length : Int)
        = .ok (⟨setBytes ms.Messages⟩, ⟨R⟩) :=
      fun R => getSubset_rt _ R
    have e4 := msgSet_decode_spec ms hp.2.2.2
    simp only [List.length_cons, partsBytes, List.append_assoc, decodeParts,
      e1, e2, e3, e4]
    rw [assocSet_append acc id ms (fun q hq => hdisj q hq (id, ms) (by simp))]
    rw [ih (acc ++ [(id, ms)]) rest (fun x hx => hall x (by simp [hx]))
      hndtail ?_]
    · simp
    · intro q hq p2 hp2
      rcases List.mem_append.mp hq with hq1 | hq2
      · exact hdisj q hq1 p2 (List.mem_cons_of_mem _ hp2)
      · have hqe : q = (id, ms) := by simpa using hq2
        rw [hqe]
        intro heq
        have heq2 : id = p2.1 := heq
        exact hid (by rw [heq2]; exact List.mem_map_of_mem (·.1) hp2)

theorem decodeTopics_spec (topics : List (List Nat × List (Int × MessageSet))) :
    ∀ (acc : List (List Nat × List (Int × MessageSet))) (rest : List Nat),
      (∀ t ∈ topics, validTopic t) → (topics.map (·.1)).Nodup →
      (∀ q ∈ acc, ∀ t ∈ topics, q.1 ≠ t.1) →
      decodeTopics topics.length acc ⟨topicsBytes topics ++ rest⟩
        = .ok (acc ++ topics, ⟨rest⟩) := by
  induction topics with
  | nil =>
    intro acc rest _ _ _
    simp [decodeTopics, topicsBytes]
  | cons t topics ih =>
    obtain ⟨topic, parts⟩ := t
    intro acc rest hall hnd hdisj
    have ht : validTopic (topic, parts) := hall _ (by simp)
    have hnd2 : (topic :: topics.map (·.1)).Nodup := hnd
    have htid : topic ∉ topics.map (·.1) := (List.nodup_cons.mp hnd2).1
    have hndtail : (topics.map (·.1)).Nodup := (List.nodup_cons.mp hnd2).2
    have e1 : ∀ R, PDec.getString ⟨int16Bytes (topic.length : Int) ++ (topic ++ R)⟩
        = .ok (topic, ⟨R⟩) :=
      fun R => getString_rt topic R ht.1
    have e2 : ∀ R, PDec.getArrayLength ⟨int32Bytes (parts.length : Int) ++ R⟩
        = .ok (parts.length, ⟨R⟩) :=
      fun R => getArrayLength_rt parts.length R ht.2.1
    have e3 := decodeParts_spec parts [] (topicsBytes topics ++ rest)
      ht.2.2.2 ht.2.2.1 (by simp)
    rw [List.nil_append] at e3
    simp only [List.length_cons, topicsBytes, List.append_assoc, decodeTopics,
      e1, e2, e3]
    rw [assocSet_append acc topic parts
      (fun q hq => hdisj q hq (topic, parts) (by simp))]
    rw [ih (acc ++ [(topic, parts)]) rest (fun x hx => hall x (by simp [hx]))
      hndtail ?_]
    · simp
    · intro q hq t2 ht2
      rcases List.mem_append.mp hq with hq1 | hq2
      · exact hdisj q hq1 t2 (List.mem_cons_of_mem _ ht2)
      · have hqe : q = (topic, parts) := by simpa using hq2
        rw [hqe]
        intro heq
        have heq2 : topic = t2.1 := heq
        exact htid (by rw [heq2]; exact List.mem_map_of_mem (·.1) ht2)

theorem req_decode_spec (r : ProduceRequest) (version : Int)
    (hv : validReq r) (rest : List Nat) :
    ProduceRequest.decode ⟨reqBytes r ++ rest⟩ version
      = .ok ({ RequiredAcks := r.RequiredAcks, Timeout := r.Timeout
               Version := version, msgSets := r.msgSets }, ⟨rest⟩) := by
  obtain ⟨h1, h2, h3, h4, h5, h6, h7⟩ := hv
  have e1 : ∀ R, PDec.getInt16 ⟨int16Bytes r.RequiredAcks ++ R⟩
      = .ok (r.RequiredAcks, ⟨R⟩) :=
    fun R => getInt16_rt _ R h1 h2
  have e2 : ∀ R, PDec.getInt32 ⟨int32Bytes r.Timeout ++ R⟩
      = .ok (r.Timeout, ⟨R⟩) :=
    fun R => getInt32_rt _ R h3 h4
  have e3 : ∀ R, PDec.getArrayLength ⟨int32Bytes (r.msgSets.length : Int) ++ R⟩
      = .ok (r.msgSets.length, ⟨R⟩) :=
    fun R => getArrayLength_rt _ R h5
  simp only [ProduceRequest.decode, reqBytes, List.append_assoc, e1, e2, e3]
  by_cases hnil : r.msgSets = []
  · rw [hnil]
    simp [topicsBytes]
  · rw [if_neg (fun hz => hnil (List.length_eq_zero.mp hz))]
    have e4 := decodeTopics_spec r.msgSets [] rest h7 h6 (by simp)
    rw [List.nil_append] at e4
    rw [e4]

/-- C3: for every ProduceRequest with in-range field values (16-bit
required-acks, 32-bit timeout and partition ids, length fields within 32
bits), duplicate-free topic and partition keys, and every protocol version,
decoding the bytes produced by `encode` succeeds and yields the same
required-acks, timeout and topic/partition/message key-value structure. -/
theorem c3_round_trip (r : ProduceRequest) (version : Int) (hv : validReq r) :
    ∃ pe : PEnc, r.encode ⟨[], []⟩ = .ok pe ∧
      ProduceRequest.decode ⟨pe.out⟩ version
        = .ok ({ RequiredAcks := r.RequiredAcks, Timeout := r.Timeout
                 Version := version, msgSets := r.msgSets }, ⟨[]⟩) := by
  refine ⟨⟨reqBytes r, []⟩, ?_, ?_⟩
  · have h := req_encode_spec r ⟨[], []⟩ hv
    simpa using h
  · have h := req_decode_spec r version hv []
    rw [List.append_nil] at h
    exact h

def msgC3 : Message := { codec := 0, key := none, value := some [1, 2, 3, 4, 5] }

def reqC3 : ProduceRequest :=
  { RequiredAcks := -1, Timeout := 10000, Version := 1
    msgSets := [([116], [((0 : Int), ⟨[msgC3]⟩)])] }

/-- Witness for C3: the spec's scenario — required-acks −1 (wait-for-all),
one topic, one partition, one message with a 5-byte value. -/
theorem c3_round_trip_witness :
    validReq reqC3 ∧
      ∃ pe : PEnc, reqC3.encode ⟨[], []⟩ = .ok pe ∧
        ProduceRequest.decode ⟨pe.out⟩ 1
          = .ok ({ RequiredAcks := reqC3.RequiredAcks, Timeout := reqC3.Timeout
                   Version := 1, msgSets := reqC3.msgSets }, ⟨[]⟩) :=
  ⟨by decide, c3_round_trip reqC3 1 (by decide)⟩

/-- C9: for every input whose topic-count field decodes to zero after the
required-acks and timeout reads succeed, `ProduceRequest.decode` returns
without error and the resulting request carries an empty topic→partition
mapping, leaving the remaining bytes untouched. -/
theorem c9_zero_topic_count (pd : PDec) (version acks t : Int)
    (pd1 pd2 pd3 : PDec)
    (h1 : pd.getInt16 = .ok (acks, pd1))
    (h2 : pd1.getInt32 = .ok (t, pd2))
    (h3 : pd2.getArrayLength = .ok (0, pd3)) :
    ProduceRequest.decode pd version
      = .ok ({ RequiredAcks := acks, Timeout := t, Version := version
               msgSets := [] }, pd3) := by
  simp only [ProduceRequest.decode, h1, h2, h3]
  simp

/-- Witness for C9: acks 1, timeout 500, topic count 0, two trailing
bytes. -/
theorem c9_zero_topic_count_witness :
    ProduceRequest.decode ⟨[0, 1, 0, 0, 1, 244, 0, 0, 0, 0, 9, 9]⟩ 2
      = .ok ({ RequiredAcks := 1, Timeout := 500, Version := 2
               msgSets := [] }, ⟨[9, 9]⟩) :=
  c9_zero_topic_count ⟨[0, 1, 0, 0, 1, 244, 0, 0, 0, 0, 9, 9]⟩ 2 1 500
    ⟨[0, 0, 1, 244, 0, 0, 0, 0, 9, 9]⟩ ⟨[0, 0, 0, 0, 9, 9]⟩ ⟨[9, 9]⟩
    rfl rfl rfl
